import Mathlib

/-!
Verification development for the `ini` Go package (INI-file parser and
section store).  The current implementation variant is shallow-embedded:
`TSectionList` (sectionlist.go) backed by `TSection` / `tKeyValList`
(section.go).  Go strings are modelled as lists of characters (`Str`);
byte-level indexing of the original coincides with character indexing on
ASCII data, and UTF-8 byte order coincides with code-point order, which
keeps all comparisons faithful.  Maps are modelled as association lists
with unique keys held in insertion order; Go map iteration order is
unspecified, and no theorem below depends on the chosen order.
Mutable state is passed explicitly; methods that mutate the receiver
return the new value, paired with the Go return value where one exists.
-/

namespace Ini

/-- Model of a Go string: a list of characters.  Go indexes bytes, the
model indexes characters; on ASCII data the two coincide, and UTF-8 byte
comparison equals code-point comparison. -/
abbrev Str := List Char

/-- Whitespace set of Go `unicode.IsSpace` / `strings.TrimSpace`,
restricted to the Latin-1 range (the full Unicode set additionally holds
code points above U+00FF that never occur in the claims). -/
def goSpace (c : Char) : Bool :=
  c = ' ' || c = '\t' || c = '\n' || c = '\x0b' || c = '\x0c' || c = '\r' ||
  c = '\u0085' || c = ' '

/-- Whitespace class of RE2's Perl `\s`, which is ASCII-only:
tab, newline, form feed, carriage return and space. -/
def reSpace (c : Char) : Bool :=
  c = '\t' || c = '\n' || c = '\x0c' || c = '\r' || c = ' '

/-- Drops the maximal run of characters satisfying `p` from the right. -/
def dropTrailing (p : Char → Bool) (l : Str) : Str :=
  (l.reverse.dropWhile p).reverse

/-- Model of Go `strings.TrimSpace`. -/
def goTrim (l : Str) : Str :=
  dropTrailing goSpace (l.dropWhile goSpace)

/-- Trim of leading RE2 `\s` characters (a greedy `\s*` after an anchor). -/
def reTrimL (l : Str) : Str := l.dropWhile reSpace

/-- Trim of trailing RE2 `\s` characters (a greedy `\s*` before an anchor). -/
def reTrimR (l : Str) : Str := dropTrailing reSpace l

/-- Trim of RE2 `\s` characters on both sides. -/
def reTrim (l : Str) : Str := reTrimR (reTrimL l)

/-- Lexicographic strict order on character lists: the model of Go's
byte-wise `<` on strings (UTF-8 byte order equals code-point order). -/
def ltStr : Str → Str → Bool
  | [], [] => false
  | [], _ :: _ => true
  | _ :: _, [] => false
  | a :: as, b :: bs => if a < b then true else if b < a then false else ltStr as bs

/-- Model of Go's `<=` (and of `>=` with the arguments swapped) on strings. -/
def leStr (a b : Str) : Bool := !(ltStr b a)

/-- Model of the Go struct `tKeyVal`: one key/value pair. -/
structure tKeyVal where
  Key : Str
  Value : Str
deriving DecidableEq, Repr

/-- Keys and values of a key/value list. -/
abbrev tKeyValList := List tKeyVal

/-- Model of `tKeyValList.value`: the value of the first entry whose key
equals `aKey`, with `Option` standing for the Go `(string, bool)` pair. -/
def kvlValue (kvl : tKeyValList) (aKey : Str) : Option Str :=
  match kvl with
  | [] => none
  | kv :: rest => if aKey = kv.Key then some kv.Value else kvlValue rest aKey

/-- Model of `tKeyValList.hasKey`: linear scan for the key. -/
def kvlHasKey (kvl : tKeyValList) (aKey : Str) : Bool :=
  match kvl with
  | [] => false
  | kv :: rest => if aKey = kv.Key then true else kvlHasKey rest aKey

/-- Model of `tKeyValList.insert`.  The Go code trims the key, rejects an
empty result, finds `idx` with `sort.Search` (whose contract is the least
index at which the predicate `kvl[i].Key >= key` holds, the predicate
being monotone on the sorted lists this structure maintains; the model
uses that least index directly via `findIdx`), then either appends,
shifts right and inserts at `idx`, or overwrites the entry at `idx`. -/
def kvlInsert (kvl : tKeyValList) (aKeyVal : tKeyVal) : tKeyValList × Bool :=
  let k := goTrim aKeyVal.Key
  if k = [] then (kvl, false)
  else
    let kv : tKeyVal := ⟨k, aKeyVal.Value⟩
    let idx := kvl.findIdx (fun e => leStr k e.Key)
    if h : idx < kvl.length then
      if (kvl.get ⟨idx, h⟩).Key = k then (kvl.set idx kv, true)
      else (kvl.insertIdx idx kv, true)
    else (kvl ++ [kv], true)

/-- Model of `tKeyValList.remove`: deletes the first entry with the key,
reporting whether one was found. -/
def kvlRemove (kvl : tKeyValList) (aKey : Str) : tKeyValList × Bool :=
  match kvl with
  | [] => ([], false)
  | kv :: rest =>
      if aKey = kv.Key then (rest, true)
      else
        let r := kvlRemove rest aKey
        (kv :: r.1, r.2)

/-- Model of `tKeyValList.compareTo`: equal lengths, and every pair of
this list is present with an equal value in the other. -/
def kvlCompareTo (kvl aList : tKeyValList) : Bool :=
  kvl.length == aList.length &&
  kvl.all (fun kv => kvlValue aList kv.Key == some kv.Value)

/-- Model of `tKeyValList.String`: one `key = value` line (or `key =` for
an empty value) per entry, each terminated by a linefeed. -/
def kvlString (kvl : tKeyValList) : Str :=
  match kvl with
  | [] => []
  | kv :: rest =>
      kv.Key ++
        (if kv.Value = [] then [' ', '=', '\n']
         else [' ', '=', ' '] ++ kv.Value ++ ['\n']) ++
      kvlString rest

/-- Model of `TSection.AddKey`: trims key and value, rejects an empty
key, then delegates to `tKeyValList.insert` (the mutex is irrelevant in
this single-threaded model). -/
def secAddKey (kl : tKeyValList) (aKey aValue : Str) : tKeyValList × Bool :=
  let k := goTrim aKey
  if k = [] then (kl, false)
  else kvlInsert kl ⟨k, goTrim aValue⟩

/-- Model of `TSection.UpdateKey`, which simply calls `AddKey`. -/
def secUpdateKey (kl : tKeyValList) (aKey aValue : Str) : tKeyValList × Bool :=
  secAddKey kl aKey aValue

/-- Model of `TSection.RemoveKey`: a missing key still counts as removed,
so the Go return value is always `true`. -/
def secRemoveKey (kl : tKeyValList) (aKey : Str) : tKeyValList × Bool :=
  ((kvlRemove kl aKey).1, true)

/-- Model of `TSection.HasKey`: trims the key and rejects an empty result. -/
def secHasKey (kl : tKeyValList) (aKey : Str) : Bool :=
  let k := goTrim aKey
  if k = [] then false else kvlHasKey kl k

/-- Sorted insertion of one pair, the auxiliary step of the sort model. -/
def insSorted (kv : tKeyVal) : tKeyValList → tKeyValList
  | [] => [kv]
  | e :: rest =>
      if leStr kv.Key e.Key then kv :: e :: rest else e :: insSorted kv rest

/-- Model of `TSection.Sort` (`sort.Slice` by `Key <`).  The Go sort is
unstable; on the duplicate-free key lists this structure maintains, every
correct sort produces the same list, and the model fixes insertion
sort. -/
def secSort (kl : tKeyValList) : tKeyValList :=
  kl.foldr insSorted []

/-- Model of `TSection.CompareTo`: delegates to `tKeyValList.compareTo`. -/
def secCompareTo (kl aSection : tKeyValList) : Bool :=
  kvlCompareTo kl aSection

/-- Lookup in the association-list model of the Go map `tSections`:
the value of the first (and by construction only) entry with this name. -/
def mapGet (m : List (Str × tKeyValList)) (name : Str) : Option tKeyValList :=
  match m with
  | [] => none
  | e :: rest => if e.1 = name then some e.2 else mapGet rest name

/-- Assignment `m[name] = kl` on the association-list model: overwrite
the existing entry in place, or append a new one. -/
def mapSet (m : List (Str × tKeyValList)) (name : Str) (kl : tKeyValList) :
    List (Str × tKeyValList) :=
  match m with
  | [] => [(name, kl)]
  | e :: rest => if e.1 = name then (name, kl) :: rest else e :: mapSet rest name kl

/-- Go `delete(m, name)` on the association-list model. -/
def mapErase (m : List (Str × tKeyValList)) (name : Str) :
    List (Str × tKeyValList) :=
  match m with
  | [] => []
  | e :: rest => if e.1 = name then rest else e :: mapErase rest name

/-- Model of the Go struct `TSectionList`: default-section name, file
name, the section order slice and the section map. -/
structure TSectionList where
  defSect : Str
  fName : Str
  secOrder : List Str
  sections : List (Str × tKeyValList)
deriving DecidableEq, Repr

/-- Model of `NewSectionList`: empty store with default section name
`Default`. -/
def NewSectionList : TSectionList :=
  { defSect := "Default".data, fName := [], secOrder := [], sections := [] }

/-- Section-name normalization performed at every entry point of
`TSectionList`: trim, and replace an empty result by `defSect`. -/
def normSect (sl : TSectionList) (aSection : Str) : Str :=
  if goTrim aSection = [] then sl.defSect else goTrim aSection

/-- Model of `TSectionList.addSection`: nothing to do when the name is
already present; otherwise store a fresh empty section and append the
name to `secOrder`.  The Go re-checks after the map assignment always
succeed (a Go map assignment cannot fail), so the result is `true` on
both paths and the `false` path of the original is dead code. -/
def addSection (sl : TSectionList) (aSection : Str) : TSectionList × Bool :=
  match mapGet sl.sections aSection with
  | some _ => (sl, true)
  | none =>
      ({ sl with
          sections := sl.sections ++ [(aSection, [])],
          secOrder := sl.secOrder ++ [aSection] }, true)

/-- Model of `TSectionList.AddSectionKey`: reject a key that trims to
empty, normalize the section name, create the section if needed, then
`TSection.AddKey` into it.  The lookup after `addSection` cannot fail;
the model keeps the match for fidelity and returns `addSection`'s result
on the dead branch as the Go code does. -/
def AddSectionKey (sl : TSectionList) (aSection aKey aValue : Str) :
    TSectionList × Bool :=
  let k := goTrim aKey
  if k = [] then (sl, false)
  else
    let sec := normSect sl aSection
    let r := addSection sl sec
    match mapGet r.1.sections sec with
    | some kl =>
        let a := secAddKey kl k aValue
        ({ r.1 with sections := mapSet r.1.sections sec a.1 }, a.2)
    | none => (r.1, r.2)

/-- Model of `TSectionList.GetSection`: the stored section, or a fresh
empty `TSection` when the (normalized) name is absent. -/
def GetSection (sl : TSectionList) (aSection : Str) : tKeyValList :=
  match mapGet sl.sections (normSect sl aSection) with
  | some kl => kl
  | none => []

/-- Model of `TSectionList.HasSection`. -/
def HasSection (sl : TSectionList) (aSection : Str) : Bool :=
  (mapGet sl.sections (normSect sl aSection)).isSome

/-- Model of `TSectionList.HasSectionKey`: an empty (trimmed) key is
always `false`; otherwise delegate to `TSection.HasKey`. -/
def HasSectionKey (sl : TSectionList) (aSection aKey : Str) : Bool :=
  let k := goTrim aKey
  if k = [] then false
  else
    match mapGet sl.sections (normSect sl aSection) with
    | some kl => secHasKey kl k
    | none => false

/-- Model of `TSectionList.RemoveSection`: an absent (normalized) name
is a successful no-op; otherwise delete the map entry, then remove the
first matching `secOrder` slot (the three slice cases of the original
all amount to removing the entry at the found index), returning `false`
when the name was in the map but not in `secOrder`. -/
def RemoveSection (sl : TSectionList) (aSection : Str) : TSectionList × Bool :=
  let sec := normSect sl aSection
  match mapGet sl.sections sec with
  | none => (sl, true)
  | some _ =>
      let sl1 := { sl with sections := mapErase sl.sections sec }
      if sl1.secOrder.length = 0 then (sl1, true)
      else if sec ∈ sl1.secOrder then
        ({ sl1 with secOrder := sl1.secOrder.erase sec }, true)
      else (sl1, false)

/-- Model of `TSectionList.RemoveSectionKey`: empty trimmed key or
missing section count as successfully removed; otherwise
`TSection.RemoveKey` (which itself always reports `true`). -/
def RemoveSectionKey (sl : TSectionList) (aSection aKey : Str) :
    TSectionList × Bool :=
  let k := goTrim aKey
  if k = [] then (sl, true)
  else
    let sec := normSect sl aSection
    match mapGet sl.sections sec with
    | some kl =>
        let r := secRemoveKey kl k
        ({ sl with sections := mapSet sl.sections sec r.1 }, r.2)
    | none => (sl, true)

/-- Model of `TSectionList.updateSectKey`: reject an empty trimmed key;
update the key in an existing section, or fall back to `AddSectionKey`
when the section does not exist. -/
def updateSectKey (sl : TSectionList) (aSection aKey aValue : Str) :
    TSectionList × Bool :=
  let k := goTrim aKey
  if k = [] then (sl, false)
  else
    let sec := normSect sl aSection
    match mapGet sl.sections sec with
    | some kl =>
        let u := secUpdateKey kl k aValue
        ({ sl with sections := mapSet sl.sections sec u.1 }, u.2)
    | none => AddSectionKey sl sec k aValue

/-- Model of `TSectionList.UpdateSectKeyStr` (passes the value through). -/
def UpdateSectKeyStr (sl : TSectionList) (aSection aKey aValue : Str) :
    TSectionList × Bool :=
  updateSectKey sl aSection aKey aValue

/-- Model of `TSectionList.UpdateSectKeyBool`: stringifies the flag as
`True` or `False`. -/
def UpdateSectKeyBool (sl : TSectionList) (aSection aKey : Str) (aValue : Bool) :
    TSectionList × Bool :=
  if aValue then updateSectKey sl aSection aKey "True".data
  else updateSectKey sl aSection aKey "False".data

/-- Rendering of `fmt.Sprintf` with verb `%d` on an integer. -/
def goItoa (i : Int) : Str := (toString i).data

/-- Model of `TSectionList.UpdateSectKeyInt`. -/
def UpdateSectKeyInt (sl : TSectionList) (aSection aKey : Str) (aValue : Int) :
    TSectionList × Bool :=
  updateSectKey sl aSection aKey (goItoa aValue)

/-- Model of `TSectionList.UpdateSectKeyUInt` (`%d` on a uint64). -/
def UpdateSectKeyUInt (sl : TSectionList) (aSection aKey : Str) (aValue : Nat) :
    TSectionList × Bool :=
  updateSectKey sl aSection aKey (goItoa (Int.ofNat aValue))

/-- Model of `TSectionList.UpdateSectKeyFloat`.  The rendering
`fmt.Sprintf` with verb `%f` of the float64 argument is outside this
embedding (floating point); the model receives the rendered decimal
string, which is all `updateSectKey` observes. -/
def UpdateSectKeyFloat (sl : TSectionList) (aSection aKey : Str)
    (aValueRendered : Str) : TSectionList × Bool :=
  updateSectKey sl aSection aKey aValueRendered

/-- Model of `TSectionList.Sections`: a copy of `secOrder` plus its
length (the copy is implicit in the value semantics of the model). -/
def Sections (sl : TSectionList) : List Str × Nat :=
  (sl.secOrder, sl.secOrder.length)

/-- Key/value pairs of all sections paired with their section name, in
the association-list order of the model.  Go's `TSectionList.Walk`
iterates the map in an unspecified order; no theorem below depends on
the order fixed here. -/
def walkPairs (sl : TSectionList) : List (Str × Str × Str) :=
  (sl.sections.map (fun e => e.2.map (fun kv => (e.1, kv.Key, kv.Value)))).flatten

/-- Model of `TSectionList.Merge`: a `nil` argument is a no-op;
otherwise every key/value pair of the other list is fed through
`AddSectionKey` (the `mergeWalker`), ignoring the returned flag. -/
def Merge (sl : TSectionList) (aINI : Option TSectionList) : TSectionList :=
  match aINI with
  | none => sl
  | some other =>
      (walkPairs other).foldl (fun acc p => (AddSectionKey acc p.1 p.2.1 p.2.2).1) sl

/-- Model of `TSectionList.CompareTo`: equal section counts, and every
section of this list exists in the other and compares equal to it. -/
def CompareTo (sl aINI : TSectionList) : Bool :=
  sl.sections.length == aINI.sections.length &&
  sl.sections.all (fun e =>
    match mapGet aINI.sections e.1 with
    | some kl => secCompareTo e.2 kl
    | none => false)

/-- Model of `TSectionList.String`: iterate `secOrder`, and for each name
present in the map emit a blank line, the header and the sorted section
body.  The original also writes the sorted section back into the map; the
model keeps the serialization pure, which no claim observes since
`CompareTo` ignores entry order. -/
def storeString (sl : TSectionList) : Str :=
  sl.secOrder.foldl
    (fun acc name =>
      match mapGet sl.sections name with
      | some kl =>
          acc ++ ['\n', '['] ++ name ++ [']', '\n'] ++ kvlString (secSort kl)
      | none => acc) []

/-- Model of the regular expression `isSectionRE`, which is
`[` `\s*` `([^\]]*?)` `\s*` `]` anchored on both sides: the line must
start with `[`, end with `]`, and the middle may not contain `]`; the
greedy `\s*` on both sides of the lazy capture strip the middle of RE2
whitespace.  Returns the captured group. -/
def matchSection (line : Str) : Option Str :=
  match line.head?, line.getLast? with
  | some c0, some cL =>
      if c0 = '[' ∧ cL = ']' ∧ 2 ≤ line.length then
        let mid := (line.drop 1).dropLast
        if ']' ∈ mid then none else some (reTrim mid)
      else none
  | _, _ => none

/-- Model of the regular expression `isKeyValRE`, which is `([^=]+?)`
`\s*` `=` `\s*` `(.*)` anchored on both sides.  The first capture is the
non-empty prefix before the first `=` with its trailing RE2 whitespace
absorbed by the following `\s*` (the lazy `+` keeps at least one
character when that prefix is all whitespace); the second capture is the
rest of the line after the `=` with leading RE2 whitespace absorbed, and
`.` does not match a newline, so a remaining newline defeats the match. -/
def matchKeyVal (line : Str) : Option (Str × Str) :=
  let p := line.findIdx (fun c => c = '=')
  if p = line.length ∨ p = 0 then none
  else
    let kraw := line.take p
    let k1 := if reTrimR kraw = [] then kraw.take 1 else reTrimR kraw
    let v1 := reTrimL (line.drop (p + 1))
    if '\n' ∈ v1 then none else some (k1, v1)

/-- Model of `removeQuotes`: trim the string, and when the regular
expression `isQuotesRE` (`\s*` `(['"])` `\s*` `(.*?)` `\s*` `(['"])`
`\s*`, anchored) matches with equal opening and closing quote
characters, keep only the middle capture (itself stripped of RE2
whitespace by the surrounding greedy `\s*`; `.` does not match a
newline, so a newline remaining in the stripped middle defeats the
match).  On the trimmed string the outer `\s*` are empty, so the quote
groups are the first and last characters. -/
def removeQuotes (aString : Str) : Str :=
  let r := goTrim aString
  match r.head?, r.getLast? with
  | some c0, some cL =>
      if (c0 = '\'' ∨ c0 = '"') ∧ (cL = '\'' ∨ cL = '"') ∧ 2 ≤ r.length then
        let mid := reTrim ((r.drop 1).dropLast)
        if '\n' ∈ mid then r
        else if c0 = cL then mid else r
      else r
  | _, _ => r

/-- UTF-8 byte length of a Go string, used for the byte counter of
`read` (each scanned line counts its length plus one for the linefeed). -/
def utf8Len (s : Str) : Nat := s.foldl (fun n c => n + c.utf8Size) 0

/-- Parser state of `TSectionList.read`: the store under construction,
the current section name, the pending continuation buffer (`lastLine`)
and the byte counter. -/
structure ReadState where
  sl : TSectionList
  curSect : Str
  lastLine : Str
  bytesRead : Nat
deriving DecidableEq, Repr

/-- Classification step at the end of the loop body of
`TSectionList.read`: a section header updates the current section name,
a key/value match inserts the pair (the key trimmed, the value passed
through `removeQuotes`), anything else is discarded. -/
def classifyLine (sl : TSectionList) (curSect line : Str) :
    TSectionList × Str :=
  match matchSection line with
  | some cap => (sl, goTrim cap)
  | none =>
      match matchKeyVal line with
      | some kv => ((AddSectionKey sl curSect (goTrim kv.1) (removeQuotes kv.2)).1, curSect)
      | none => (sl, curSect)

/-- One iteration of the loop of `TSectionList.read` on a raw scanned
line.  `none` models a Go runtime panic from an out-of-range string
index; every index of the original is checked at the point where the
original performs it.  `lineLen` is the length taken before the
blank-line branch may replace `line` by the pending buffer, exactly as
in the original, where it is not recomputed after that swap. -/
def processLine (st : ReadState) (raw : Str) : Option ReadState :=
  let bytes := st.bytesRead + utf8Len raw + 1
  let line0 := goTrim raw
  let lineLen := line0.length
  if lineLen = 0 ∧ st.lastLine = [] then
    -- skip blank line
    some { st with bytesRead := bytes }
  else
    let line1 := if lineLen = 0 then st.lastLine else line0
    let last1 : Str := if lineLen = 0 then [] else st.lastLine
    match line1.head? with
    | none => none  -- line[0] on an empty string: panic (unreachable)
    | some c0 =>
        if (c0 = ';' ∨ c0 = '#') ∧ last1 = [] then
          -- skip comment line
          some { st with bytesRead := bytes }
        else
          let line2 := if c0 = ';' ∨ c0 = '#' then last1 else line1
          let last2 : Str := if c0 = ';' ∨ c0 = '#' then [] else last1
          if lineLen = 0 then none  -- line[lineLen-1] with lineLen == 0: index -1 panics
          else
            match line2.get? (lineLen - 1) with
            | none => none  -- line[lineLen-1] beyond the line: panic
            | some cBack =>
                if cBack = '\\' then
                  let chunk := line2.take (lineLen - 1)
                  let newLast :=
                    if 1 < lineLen ∧ line2.get? (lineLen - 2) = some ' '
                    then last2 ++ chunk
                    else last2 ++ chunk ++ [' ']
                  some { st with lastLine := newLast, bytesRead := bytes }
                else
                  let line3 := if last2 = [] then line2 else last2 ++ line2
                  let r := classifyLine st.sl st.curSect line3
                  some { sl := r.1, curSect := r.2, lastLine := [],
                         bytesRead := bytes }

/-- Loop of `TSectionList.read` over the scanned lines. -/
def readLoop (st : ReadState) : List Str → Option ReadState
  | [] => some st
  | l :: rest =>
      match processLine st l with
      | none => none
      | some st2 => readLoop st2 rest

/-- Model of `TSectionList.read`: runs the loop from the default
section with an empty continuation buffer and returns the store and the
byte count.  The input is the line sequence produced by the scanner, so
the only Go error source (`aScanner.Err()`) is absent; `none` models a
runtime panic. -/
def readLines (sl : TSectionList) (lines : List Str) :
    Option (TSectionList × Nat) :=
  (readLoop { sl := sl, curSect := sl.defSect, lastLine := [], bytesRead := 0 }
      lines).map (fun st => (st.sl, st.bytesRead))

/-- Parse of a document into a fresh section store, the composition
`load` performs after opening the file. -/
def parseDoc (lines : List Str) : Option TSectionList :=
  (readLines NewSectionList lines).map (fun r => r.1)

/-- Drop of one trailing carriage return, as `bufio.ScanLines` performs
on every token. -/
def dropCR (l : Str) : Str :=
  if l.getLast? = some '\r' then l.dropLast else l

/-- Accumulating worker for `scanLines`. -/
def scanAux : Str → Str → List Str
  | [], acc => if acc = [] then [] else [dropCR acc]
  | c :: rest, acc =>
      if c = '\n' then dropCR acc :: scanAux rest []
      else scanAux rest (acc ++ [c])

/-- Model of a `bufio.Scanner` with the default `ScanLines` split: the
text is cut at every linefeed, each token loses one trailing carriage
return, and a final token is only emitted when non-empty. -/
def scanLines (s : Str) : List Str := scanAux s []

/-- Model of `TSection.AsString`: trim the key, reject an empty result,
then look the key up, with `Option` for the Go `(string, bool)` pair. -/
def secAsString (kl : tKeyValList) (aKey : Str) : Option Str :=
  let k := goTrim aKey
  if k = [] then none else kvlValue kl k

/-- Model of `TSectionList.AsString`: trim the key, normalize the
section name, delegate to the section. -/
def AsString (sl : TSectionList) (aSection aKey : Str) : Option Str :=
  let k := goTrim aKey
  if k = [] then none
  else
    match mapGet sl.sections (normSect sl aSection) with
    | some kl => secAsString kl k
    | none => none

/-- Result of `TSectionList.GetSection` with the Go pointer structure
made explicit: when the name is stored, the original returns the pointer
held in the map (aliased with the store, identified here by the name);
when it is absent, the original returns the address of a fresh empty
`TSection` that no store field references. -/
inductive SectionRef where
  | stored (name : Str)
  | fresh (data : tKeyValList)
deriving DecidableEq, Repr

/-- Model of `TSectionList.GetSection` at the pointer level. -/
def GetSectionRef (sl : TSectionList) (aSection : Str) : SectionRef :=
  match mapGet sl.sections (normSect sl aSection) with
  | some _ => SectionRef.stored (normSect sl aSection)
  | none => SectionRef.fresh []

/-- Semantics of calling `TSection.AddKey` through a pointer obtained
from `GetSection`: a write through the stored pointer changes the map
entry it aliases, a write through a fresh object changes only that
object.  Returns the updated store and the updated referenced object. -/
def addKeyThrough (sl : TSectionList) (ref : SectionRef) (aKey aValue : Str) :
    TSectionList × SectionRef :=
  match ref with
  | SectionRef.stored n =>
      match mapGet sl.sections n with
      | some kl =>
          ({ sl with sections := mapSet sl.sections n (secAddKey kl aKey aValue).1 },
           SectionRef.stored n)
      | none => (sl, SectionRef.stored n)
  | SectionRef.fresh d => (sl, SectionRef.fresh (secAddKey d aKey aValue).1)

/-- Entry-point mutations of the section store used by the claims about
reachable stores. -/
inductive MutOp where
  | add (s k v : Str)
  | remSec (s : Str)
  | remKey (s k : Str)
  | updStr (s k v : Str)
  | updBool (s k : Str) (b : Bool)
  | updInt (s k : Str) (i : Int)
  | updUInt (s k : Str) (n : Nat)
  | updFloat (s k vRendered : Str)
deriving DecidableEq, Repr

/-- Application of one entry-point mutation (the Go return flag is
dropped). -/
def applyOp (sl : TSectionList) : MutOp → TSectionList
  | MutOp.add s k v => (AddSectionKey sl s k v).1
  | MutOp.remSec s => (RemoveSection sl s).1
  | MutOp.remKey s k => (RemoveSectionKey sl s k).1
  | MutOp.updStr s k v => (UpdateSectKeyStr sl s k v).1
  | MutOp.updBool s k b => (UpdateSectKeyBool sl s k b).1
  | MutOp.updInt s k i => (UpdateSectKeyInt sl s k i).1
  | MutOp.updUInt s k n => (UpdateSectKeyUInt sl s k n).1
  | MutOp.updFloat s k fr => (UpdateSectKeyFloat sl s k fr).1

/-- Application of a sequence of entry-point mutations. -/
def applyOps (ops : List MutOp) (sl : TSectionList) : TSectionList :=
  ops.foldl applyOp sl

/-- Call sequence considered by the order-invariant claim:
`AddSectionKey` and `RemoveSection` only. -/
inductive ArOp where
  | add (s k v : Str)
  | remove (s : Str)
deriving DecidableEq, Repr

/-- Application of one `ArOp`. -/
def applyArOp (sl : TSectionList) : ArOp → TSectionList
  | ArOp.add s k v => (AddSectionKey sl s k v).1
  | ArOp.remove s => (RemoveSection sl s).1

/-- Application of a sequence of `ArOp`s. -/
def applyArOps (ops : List ArOp) (sl : TSectionList) : TSectionList :=
  ops.foldl applyArOp sl

/-- Section-name normalization against the default name of a freshly
created store (`NewSectionList` fixes `defSect` to `Default`, and no
`ArOp` changes it). -/
def normD (s : Str) : Str :=
  if goTrim s = [] then "Default".data else goTrim s

/-- One step of the reference computation for the order-invariant
claim: an effective `AddSectionKey` (one whose key does not trim to
empty) records its normalized section name once, `RemoveSection` erases
it. -/
def aliveStep (cur : List Str) : ArOp → List Str
  | ArOp.add s k _ =>
      if goTrim k = [] then cur
      else if normD s ∈ cur then cur else cur ++ [normD s]
  | ArOp.remove s => cur.erase (normD s)

/-- Reference list for the order-invariant claim: the distinct
(normalized) section names added by an effective `AddSectionKey` and
not removed afterwards, in first insertion order. -/
def aliveNames (ops : List ArOp) : List Str :=
  ops.foldl aliveStep []

/-- Structural invariant carried through `AddSectionKey` and
`RemoveSection` sequences: fixed default name, duplicate-free order
slice and map keys, and order slice in bijection with the map keys. -/
def ArInv (sl : TSectionList) : Prop :=
  sl.defSect = "Default".data ∧
  sl.secOrder.Nodup ∧
  (sl.sections.map Prod.fst).Nodup ∧
  ∀ n, n ∈ sl.secOrder ↔ (mapGet sl.sections n).isSome = true

/-- Sorted insertion seen as a plain recursion: walk to the first entry
whose key is not below the new key, replace it on key equality,
otherwise insert in front of it.  This is what `tKeyValList.insert`
computes (proved below), stated recursively for reasoning. -/
def insR (kl : tKeyValList) (kv : tKeyVal) : tKeyValList :=
  match kl with
  | [] => [kv]
  | e :: rest =>
      if ltStr kv.Key e.Key then kv :: e :: rest
      else if kv.Key = e.Key then kv :: rest
      else e :: insR rest kv

/-- Strict sortedness of a key/value list by key, the invariant
`tKeyValList.insert` maintains. -/
def StrictKl (kl : tKeyValList) : Prop :=
  kl.Pairwise (fun a b => ltStr a.Key b.Key = true)

/-- Well-formedness of a key as stored by the parser: trimmed,
non-empty, free of `=`, linefeed-free, and not starting with a comment
character. -/
def KeyWF (k : Str) : Prop :=
  goTrim k = k ∧ k ≠ [] ∧ '=' ∉ k ∧ '\n' ∉ k ∧
  ∀ c, k.head? = some c → c ≠ ';' ∧ c ≠ '#'

/-- Well-formedness of a section name as stored by the parser: trimmed,
non-empty, free of `]` and of linefeeds. -/
def NameWF (n : Str) : Prop :=
  goTrim n = n ∧ n ≠ [] ∧ ']' ∉ n ∧ '\n' ∉ n

/-- Well-formedness of a value as stored by the parser: trimmed and
linefeed-free. -/
def ValWF (v : Str) : Prop :=
  goTrim v = v ∧ '\n' ∉ v

/-- Well-formedness of a section store as established by parsing:
`secOrder` is duplicate-free and in bijection with the key set of the
section map, the map keys are duplicate-free, and every section is
non-empty, strictly sorted, with well-formed name, keys and values. -/
def StoreWF (sl : TSectionList) : Prop :=
  sl.secOrder.Nodup ∧
  (∀ n, n ∈ sl.secOrder ↔ (mapGet sl.sections n).isSome = true) ∧
  (sl.sections.map Prod.fst).Nodup ∧
  ∀ e ∈ sl.sections, NameWF e.1 ∧ StrictKl e.2 ∧ e.2 ≠ [] ∧
    ∀ kv ∈ e.2, KeyWF kv.Key ∧ ValWF kv.Value

/-- Serialized form of one key/value pair without the linefeed, as
`tKeyValList.String` writes it. -/
def kvLine (kv : tKeyVal) : Str :=
  kv.Key ++ (if kv.Value = [] then [' ', '='] else [' ', '=', ' '] ++ kv.Value)

/-- Conditions under which a parsed store survives the serialize/parse
round trip: no stored value ends in a backslash (which would re-trigger
line continuation), no stored value is stripped again by `removeQuotes`
(a matching outer quote pair), and no serialized key/value line is
itself of section-header shape. -/
def RoundSafe (sl : TSectionList) : Prop :=
  ∀ e ∈ sl.sections, ∀ kv ∈ e.2,
    kv.Value.getLast? ≠ some '\\' ∧
    removeQuotes kv.Value = kv.Value ∧
    matchSection (kvLine kv) = none

/-- Serialized lines of a section body, one per pair, without the
linefeeds. -/
def kvLines (kl : tKeyValList) : List Str := kl.map kvLine

/-- Concatenation of lines with one linefeed after each. -/
def unlines (ls : List Str) : Str := (ls.map (fun l => l ++ ['\n'])).flatten

/-- Serialized lines of one section: a blank line, the bracketed header,
then the body lines. -/
def unitLines (n : Str) (kl : tKeyValList) : List Str :=
  [] :: ('[' :: (n ++ [']'])) :: kvLines kl

/-- Serialized lines of a whole store in `secOrder` order (the bodies
sorted, as `TSectionList.String` sorts them); an absent name contributes
an empty body, a case the bijection invariant rules out. -/
def allLines (sl : TSectionList) : List Str :=
  (sl.secOrder.map (fun n =>
    unitLines n
      (match mapGet sl.sections n with
       | some kl => secSort kl
       | none => []))).flatten

/-- Invariant of the pending continuation buffer during parsing: free of
linefeeds, and its first non-blank character (if any) is not a comment
marker. -/
def LastWF (last : Str) : Prop :=
  '\n' ∉ last ∧
  ∀ c, (last.dropWhile goSpace).head? = some c → c ≠ ';' ∧ c ≠ '#'

/-- Invariant of the current-section-name register during parsing. -/
def CurWF (cur : Str) : Prop := ']' ∉ cur ∧ '\n' ∉ cur

/-- Invariant of the whole parser state. -/
def StateWF (st : ReadState) : Prop :=
  StoreWF st.sl ∧ st.sl.defSect = "Default".data ∧
  CurWF st.curSect ∧ LastWF st.lastLine

/-- Sortedness of all sections of a store, the invariant behind key
uniqueness. -/
def SortedStore (sl : TSectionList) : Prop :=
  ∀ e ∈ sl.sections, StrictKl e.2

/-- Well-formedness of a merge argument: duplicate-free section names,
trimmed non-empty names, and per section duplicate-free trimmed
non-empty keys with trimmed values — all properties of stores reachable
through the public interface. -/
def MergeWF (b : TSectionList) : Prop :=
  (b.sections.map Prod.fst).Nodup ∧
  ∀ e ∈ b.sections,
    (goTrim e.1 = e.1 ∧ e.1 ≠ []) ∧
    (e.2.map tKeyVal.Key).Nodup ∧
    ∀ kv ∈ e.2, goTrim kv.Key = kv.Key ∧ kv.Key ≠ [] ∧ goTrim kv.Value = kv.Value

/-- Raw store query: the value of `k` in the section stored under the
exact name `s`, if both exist — the observation underlying `AsString`
and `HasSectionKey`. -/
def lookupValue (sl : TSectionList) (s k : Str) : Option Str :=
  match mapGet sl.sections s with
  | some kl => kvlValue kl k
  | none => none

/-- Well-formedness of a walked pair list: trimmed non-empty section
names and keys, trimmed values. -/
def PairsWF (ps : List (Str × Str × Str)) : Prop :=
  ∀ p ∈ ps, goTrim p.1 = p.1 ∧ p.1 ≠ [] ∧ goTrim p.2.1 = p.2.1 ∧
    p.2.1 ≠ [] ∧ goTrim p.2.2 = p.2.2

/-- No two walked pairs address the same section/key slot. -/
def PairsDistinct (ps : List (Str × Str × Str)) : Prop :=
  ps.Pairwise (fun p q => ¬(p.1 = q.1 ∧ p.2.1 = q.2.1))

/-- The fold `Merge` performs over the walked pairs of its argument. -/
def mergeFold (ps : List (Str × Str × Str)) (sl : TSectionList) : TSectionList :=
  ps.foldl (fun acc p => (AddSectionKey acc p.1 p.2.1 p.2.2).1) sl

/-- Fold of `AddSectionKey` over the pairs of one section body, the
effect of re-parsing that body's serialized lines. -/
def addKl (sl : TSectionList) (n : Str) (kl : tKeyValList) : TSectionList :=
  kl.foldl (fun s kv => (AddSectionKey s n kv.Key kv.Value).1) sl

/-- Fold of `addKl` over a list of serialized section units. -/
def addUnits (sl : TSectionList) (L : List (Str × tKeyValList)) : TSectionList :=
  L.foldl (fun s e => addKl s e.1 e.2) sl

/-- Conditions on one serialized section unit under which its lines parse
back verbatim: well-formed name, non-empty body of well-formed pairs none
of which re-triggers line continuation, quote stripping or header
recognition. -/
def UnitSafe (n : Str) (kl : tKeyValList) : Prop :=
  NameWF n ∧ kl ≠ [] ∧ ∀ kv ∈ kl, KeyWF kv.Key ∧ ValWF kv.Value ∧
    kv.Value.getLast? ≠ some '\\' ∧ removeQuotes kv.Value = kv.Value ∧
    matchSection (kvLine kv) = none

/-- Serialized lines of a list of section units. -/
def unitsLines (L : List (Str × tKeyValList)) : List Str :=
  (L.map (fun e => unitLines e.1 e.2)).flatten

/-- Section units of a store in `secOrder` order with sorted bodies, the
decomposition `TSectionList.String` serializes. -/
def storeUnits (sl : TSectionList) : List (Str × tKeyValList) :=
  sl.secOrder.map (fun n =>
    (n, match mapGet sl.sections n with
        | some kl => secSort kl
        | none => []))

/-! Order facts about the string comparison. -/

theorem ltStr_irrefl (a : Str) : ltStr a a = false := by
  induction a with
  | nil => rfl
  | cons c cs ih => simp [ltStr, ih]

theorem ltStr_trans {a b c : Str} (h1 : ltStr a b = true)
    (h2 : ltStr b c = true) : ltStr a c = true := by
  induction a generalizing b c with
  | nil =>
    cases b with
    | nil => simp [ltStr] at h1
    | cons y ys =>
      cases c with
      | nil => simp [ltStr] at h2
      | cons z zs => simp [ltStr]
  | cons x xs ih =>
    cases b with
    | nil => simp [ltStr] at h1
    | cons y ys =>
      cases c with
      | nil => simp [ltStr] at h2
      | cons z zs =>
        simp only [ltStr] at h1 h2 ⊢
        by_cases hxy : x < y
        · by_cases hyz : y < z
          · simp [lt_trans hxy hyz]
          · by_cases hzy : z < y
            · simp [hyz, hzy] at h2
            · have hy : y = z := le_antisymm (le_of_not_lt hzy) (le_of_not_lt hyz)
              subst hy
              simp [hxy]
        · by_cases hyx : y < x
          · simp [hxy, hyx] at h1
          · have hx : x = y := le_antisymm (le_of_not_lt hyx) (le_of_not_lt hxy)
            subst hx
            simp only [hxy, if_false, if_neg hyx] at h1
            by_cases hxz : x < z
            · simp [hxz]
            · by_cases hzx : z < x
              · simp [hxz, hzx] at h2
              · have hz : x = z := le_antisymm (le_of_not_lt hzx) (le_of_not_lt hxz)
                subst hz
                simp only [lt_irrefl, if_false] at h2 ⊢
                exact ih h1 h2

theorem ltStr_asymm {a b : Str} (h : ltStr a b = true) : ltStr b a = false := by
  induction a generalizing b with
  | nil =>
    cases b with
    | nil => simp [ltStr] at h
    | cons y ys => simp [ltStr]
  | cons x xs ih =>
    cases b with
    | nil => simp [ltStr] at h
    | cons y ys =>
      simp only [ltStr] at h ⊢
      by_cases hxy : x < y
      · have hyx : ¬ y < x := lt_asymm hxy
        simp [hyx, hxy]
      · by_cases hyx : y < x
        · simp [hxy, hyx] at h
        · simp only [hxy, if_false, if_neg hyx] at h
          simp [hxy, hyx, ih h]

theorem eq_of_not_ltStr {a b : Str} (h1 : ltStr a b = false)
    (h2 : ltStr b a = false) : a = b := by
  induction a generalizing b with
  | nil =>
    cases b with
    | nil => rfl
    | cons y ys => simp [ltStr] at h1
  | cons x xs ih =>
    cases b with
    | nil => simp [ltStr] at h2
    | cons y ys =>
      simp only [ltStr] at h1 h2
      by_cases hxy : x < y
      · simp [hxy] at h1
      · by_cases hyx : y < x
        · simp [hxy, hyx] at h2
        · have hx : x = y := le_antisymm (le_of_not_lt hyx) (le_of_not_lt hxy)
          subst hx
          simp only [lt_irrefl, if_false] at h1 h2
          rw [ih h1 h2]

theorem ltStr_ne {a b : Str} (h : ltStr a b = true) : a ≠ b := by
  intro he
  subst he
  rw [ltStr_irrefl] at h
  exact Bool.false_ne_true h

theorem ltStr_of_not_le {a b : Str} (h : leStr a b = false) :
    ltStr b a = true := by
  unfold leStr at h
  cases hb : ltStr b a with
  | false => rw [hb] at h; simp at h
  | true => rfl

theorem ltStr_true_of_le_ne {a b : Str} (h : leStr a b = true)
    (hne : b ≠ a) : ltStr a b = true := by
  unfold leStr at h
  cases hab : ltStr a b with
  | true => rfl
  | false =>
    cases hba : ltStr b a with
    | true => rw [hba] at h; simp at h
    | false => exact absurd (eq_of_not_ltStr hba hab) hne

theorem leStr_of_lt {a b : Str} (h : ltStr a b = true) : leStr a b = true := by
  unfold leStr
  rw [ltStr_asymm h]
  rfl

/-! Facts about trimming. -/

theorem head?_dropWhile {p : Char → Bool} {l : Str} {c : Char}
    (h : (l.dropWhile p).head? = some c) : p c = false := by
  induction l with
  | nil => simp at h
  | cons a t ih =>
    by_cases ha : p a
    · rw [List.dropWhile_cons, if_pos ha] at h
      exact ih h
    · rw [List.dropWhile_cons, if_neg ha] at h
      have hac : a = c := by simpa using h
      cases hac
      simpa using ha

theorem dropWhile_eq_self {p : Char → Bool} {l : Str}
    (h : ∀ c, l.head? = some c → p c = false) : l.dropWhile p = l := by
  cases l with
  | nil => rfl
  | cons a t => rw [List.dropWhile_cons, if_neg (by simp [h a rfl])]

theorem dropTrailing_eq_self {p : Char → Bool} {l : Str}
    (h : ∀ c, l.getLast? = some c → p c = false) : dropTrailing p l = l := by
  unfold dropTrailing
  rw [dropWhile_eq_self, List.reverse_reverse]
  intro c hc
  rw [List.head?_reverse] at hc
  exact h c hc

theorem getLast?_dropTrailing {p : Char → Bool} {l : Str} {c : Char}
    (h : (dropTrailing p l).getLast? = some c) : p c = false := by
  unfold dropTrailing at h
  rw [List.getLast?_reverse] at h
  exact head?_dropWhile h

theorem dropTrailing_sublist (p : Char → Bool) (l : Str) :
    (dropTrailing p l).Sublist l := by
  unfold dropTrailing
  have h1 : (l.reverse.dropWhile p).Sublist l.reverse := List.dropWhile_sublist _
  have h2 := h1.reverse
  rwa [List.reverse_reverse] at h2

theorem dropTrailing_append_eq (p : Char → Bool) (l : Str) :
    dropTrailing p l ++ (l.reverse.takeWhile p).reverse = l := by
  have h := congrArg List.reverse
    (List.takeWhile_append_dropWhile (p := p) (l := l.reverse))
  rw [List.reverse_append, List.reverse_reverse] at h
  exact h

theorem head?_dropTrailing {p : Char → Bool} {l : Str} {c : Char}
    (h : (dropTrailing p l).head? = some c) : l.head? = some c := by
  have hl := dropTrailing_append_eq p l
  cases hd : dropTrailing p l with
  | nil => rw [hd] at h; simp at h
  | cons b bs =>
      rw [hd] at h hl
      have hbc : b = c := by simpa using h
      rw [← hl]
      simp [hbc]

theorem goTrim_head {l : Str} {c : Char} (h : (goTrim l).head? = some c) :
    goSpace c = false := by
  unfold goTrim at h
  exact head?_dropWhile (head?_dropTrailing h)

theorem goTrim_last {l : Str} {c : Char} (h : (goTrim l).getLast? = some c) :
    goSpace c = false := by
  unfold goTrim at h
  exact getLast?_dropTrailing h

theorem goTrim_eq_self {l : Str}
    (h1 : ∀ c, l.head? = some c → goSpace c = false)
    (h2 : ∀ c, l.getLast? = some c → goSpace c = false) : goTrim l = l := by
  unfold goTrim
  rw [dropWhile_eq_self h1, dropTrailing_eq_self h2]

theorem goTrim_idem (l : Str) : goTrim (goTrim l) = goTrim l :=
  goTrim_eq_self (fun _ h => goTrim_head h) (fun _ h => goTrim_last h)

theorem goTrim_sublist (l : Str) : (goTrim l).Sublist l :=
  (dropTrailing_sublist _ _).trans (List.dropWhile_sublist _)

theorem mem_of_mem_goTrim {l : Str} {c : Char} (h : c ∈ goTrim l) : c ∈ l :=
  (goTrim_sublist l).subset h

theorem reSpace_goSpace {c : Char} (h : reSpace c = true) : goSpace c = true := by
  unfold reSpace at h
  unfold goSpace
  rcases Bool.or_eq_true_iff.mp h with h | h
  · rcases Bool.or_eq_true_iff.mp h with h | h
    · rcases Bool.or_eq_true_iff.mp h with h | h
      · rcases Bool.or_eq_true_iff.mp h with h | h <;> simp_all
      · simp_all
    · simp_all
  · simp_all

theorem not_reSpace {c : Char} (h : goSpace c = false) : reSpace c = false := by
  cases hr : reSpace c with
  | false => rfl
  | true => rw [reSpace_goSpace hr] at h; exact absurd h (by simp)

theorem reTrimL_eq_self {l : Str}
    (h : ∀ c, l.head? = some c → goSpace c = false) : reTrimL l = l :=
  dropWhile_eq_self (fun c hc => not_reSpace (h c hc))

theorem reTrimR_eq_self {l : Str}
    (h : ∀ c, l.getLast? = some c → goSpace c = false) : reTrimR l = l :=
  dropTrailing_eq_self (fun c hc => not_reSpace (h c hc))

theorem reTrim_eq_self {l : Str}
    (h1 : ∀ c, l.head? = some c → goSpace c = false)
    (h2 : ∀ c, l.getLast? = some c → goSpace c = false) : reTrim l = l := by
  unfold reTrim
  rw [reTrimL_eq_self h1, reTrimR_eq_self h2]

theorem goTrim_of_trimmed_ends {l : Str}
    (h1 : ∀ c, l.head? = some c → goSpace c = false)
    (h2 : ∀ c, l.getLast? = some c → goSpace c = false) :
    goTrim (reTrim l) = l := by
  rw [reTrim_eq_self h1 h2, goTrim_eq_self h1 h2]

/-! The sorted-insert routine as a recursion, and its consequences. -/

theorem insCore_eq (kl : tKeyValList) (kv : tKeyVal) :
    (if h : kl.findIdx (fun e => leStr kv.Key e.Key) < kl.length then
      (if (kl.get ⟨kl.findIdx (fun e => leStr kv.Key e.Key), h⟩).Key = kv.Key
       then kl.set (kl.findIdx (fun e => leStr kv.Key e.Key)) kv
       else kl.insertIdx (kl.findIdx (fun e => leStr kv.Key e.Key)) kv)
     else kl ++ [kv]) = insR kl kv := by
  induction kl with
  | nil => simp [insR]
  | cons e rest ih =>
    rw [List.findIdx_cons]
    by_cases hp : leStr kv.Key e.Key = true
    · rw [hp]
      simp only [cond_true]
      have h0 : (0 : Nat) < (e :: rest).length := by simp
      rw [dif_pos h0]
      by_cases heq : e.Key = kv.Key
      · rw [if_pos (by simpa using heq)]
        have hlt : ltStr kv.Key e.Key = false := by
          rw [heq, ltStr_irrefl]
        simp only [insR, hlt]
        rw [if_neg (by simp), if_pos heq.symm]
        simp
      · rw [if_neg (by simpa using heq)]
        have hlt : ltStr kv.Key e.Key = true :=
          ltStr_true_of_le_ne hp (fun hc => heq hc)
        simp [insR, hlt]
    · have hp2 : leStr kv.Key e.Key = false := by
        cases h : leStr kv.Key e.Key with
        | true => exact absurd h hp
        | false => rfl
      rw [hp2]
      simp only [cond_false]
      have hlt : ltStr e.Key kv.Key = true := ltStr_of_not_le hp2
      have hne : kv.Key ≠ e.Key := fun hc => (ltStr_ne hlt) hc.symm
      have hins : insR (e :: rest) kv = e :: insR rest kv := by
        simp [insR, ltStr_asymm hlt, hne]
      rw [hins]
      by_cases h2 : rest.findIdx (fun x => leStr kv.Key x.Key) < rest.length
      · rw [dif_pos (by simpa using Nat.succ_lt_succ h2)]
        rw [← ih]
        rw [dif_pos h2]
        by_cases heq2 : (rest.get ⟨_, h2⟩).Key = kv.Key
        · rw [if_pos (by simpa using heq2), if_pos heq2]
          rfl
        · rw [if_neg (by simpa using heq2), if_neg heq2]
          rfl
      · rw [dif_neg (by simpa using fun hc => h2 (Nat.lt_of_succ_lt_succ hc))]
        rw [← ih, dif_neg h2]
        rfl

theorem kvlInsert_eq_insR {kl : tKeyValList} {kv : tKeyVal}
    (ht : goTrim kv.Key = kv.Key) (hne : kv.Key ≠ []) :
    kvlInsert kl kv = (insR kl kv, true) := by
  unfold kvlInsert
  simp only [ht]
  rw [if_neg hne]
  rw [← insCore_eq kl kv]
  by_cases hidx : kl.findIdx (fun e => leStr kv.Key e.Key) < kl.length
  · rw [dif_pos hidx, dif_pos hidx]
    by_cases hkey : (kl.get ⟨kl.findIdx (fun e => leStr kv.Key e.Key), hidx⟩).Key = kv.Key
    · rw [if_pos hkey, if_pos hkey]
    · rw [if_neg hkey, if_neg hkey]
  · rw [dif_neg hidx, dif_neg hidx]

theorem kvlInsert_empty_key {kl : tKeyValList} {kv : tKeyVal}
    (h : goTrim kv.Key = []) : kvlInsert kl kv = (kl, false) := by
  unfold kvlInsert
  simp [h]

theorem insR_ne_nil (kl : tKeyValList) (kv : tKeyVal) : insR kl kv ≠ [] := by
  cases kl with
  | nil => simp [insR]
  | cons e rest =>
    unfold insR
    by_cases h1 : ltStr kv.Key e.Key = true
    · rw [if_pos h1]; simp
    · rw [if_neg h1]
      by_cases h2 : kv.Key = e.Key
      · rw [if_pos h2]; simp
      · rw [if_neg h2]; simp

theorem mem_insR {kl : tKeyValList} {kv x : tKeyVal} (h : x ∈ insR kl kv) :
    x = kv ∨ x ∈ kl := by
  induction kl with
  | nil =>
    simp only [insR, List.mem_singleton] at h
    exact Or.inl h
  | cons e rest ih =>
    unfold insR at h
    by_cases h1 : ltStr kv.Key e.Key = true
    · rw [if_pos h1] at h
      simp only [List.mem_cons] at h
      rcases h with h | h | h
      · exact Or.inl h
      · exact Or.inr (by simp [h])
      · exact Or.inr (by simp [h])
    · rw [if_neg h1] at h
      by_cases h2 : kv.Key = e.Key
      · rw [if_pos h2] at h
        simp only [List.mem_cons] at h
        rcases h with h | h
        · exact Or.inl h
        · exact Or.inr (by simp [h])
      · rw [if_neg h2] at h
        simp only [List.mem_cons] at h
        rcases h with h | h
        · exact Or.inr (by simp [h])
        · rcases ih h with h3 | h3
          · exact Or.inl h3
          · exact Or.inr (by simp [h3])

theorem insR_strict {kl : tKeyValList} {kv : tKeyVal} (h : StrictKl kl) :
    StrictKl (insR kl kv) := by
  induction kl with
  | nil => simp [insR, StrictKl]
  | cons e rest ih =>
    have hrest : StrictKl rest := (List.pairwise_cons.mp h).2
    have hall : ∀ x ∈ rest, ltStr e.Key x.Key = true := (List.pairwise_cons.mp h).1
    unfold insR
    by_cases h1 : ltStr kv.Key e.Key = true
    · rw [if_pos h1]
      refine List.pairwise_cons.mpr ⟨?_, h⟩
      intro x hx
      rcases List.mem_cons.mp hx with hx | hx
      · simpa [hx] using h1
      · exact ltStr_trans h1 (hall x hx)
    · rw [if_neg h1]
      by_cases h2 : kv.Key = e.Key
      · rw [if_pos h2]
        refine List.pairwise_cons.mpr ⟨?_, hrest⟩
        intro x hx
        rw [h2]
        exact hall x hx
      · rw [if_neg h2]
        refine List.pairwise_cons.mpr ⟨?_, ih hrest⟩
        intro x hx
        rcases mem_insR hx with h3 | h3
        · rw [h3]
          exact ltStr_of_not_le (by
            cases hle : leStr kv.Key e.Key with
            | false => rfl
            | true => exact absurd (ltStr_true_of_le_ne hle (fun hc => h2 hc.symm)) (by simp [h1]))
        · exact hall x h3

theorem insR_value (kl : tKeyValList) (kv : tKeyVal) (k : Str) :
    kvlValue (insR kl kv) k =
      if k = kv.Key then some kv.Value else kvlValue kl k := by
  induction kl with
  | nil => simp [insR, kvlValue]
  | cons e rest ih =>
    unfold insR
    by_cases h1 : ltStr kv.Key e.Key = true
    · rw [if_pos h1]
      by_cases hk : k = kv.Key
      · simp [kvlValue, hk]
      · simp [kvlValue, hk]
    · rw [if_neg h1]
      by_cases h2 : kv.Key = e.Key
      · rw [if_pos h2]
        by_cases hk : k = kv.Key
        · simp [kvlValue, hk]
        · have hke : k ≠ e.Key := by rw [← h2]; exact hk
          simp [kvlValue, hk, hke]
      · rw [if_neg h2]
        by_cases hke : k = e.Key
        · have hk : ¬ k = kv.Key := by
            rw [hke]
            exact fun hc => h2 hc.symm
          have h2s : ¬ e.Key = kv.Key := fun hc => h2 hc.symm
          simp [kvlValue, hke, hk, h2s]
        · simp [kvlValue, hke, ih]

theorem insR_append {kl : tKeyValList} {kv : tKeyVal}
    (h : ∀ x ∈ kl, ltStr x.Key kv.Key = true) : insR kl kv = kl ++ [kv] := by
  induction kl with
  | nil => simp [insR]
  | cons e rest ih =>
    have he : ltStr e.Key kv.Key = true := h e (by simp)
    unfold insR
    rw [if_neg (by simp [ltStr_asymm he]),
        if_neg (fun hc => (ltStr_ne he) hc.symm),
        ih (fun x hx => h x (by simp [hx]))]
    rfl

theorem kvlValue_isSome_iff_hasKey (kl : tKeyValList) (k : Str) :
    (kvlValue kl k).isSome = kvlHasKey kl k := by
  induction kl with
  | nil => rfl
  | cons e rest ih =>
    unfold kvlValue kvlHasKey
    by_cases h : k = e.Key <;> simp [h, ih]

theorem kvlRemove_sublist (kl : tKeyValList) (k : Str) :
    ((kvlRemove kl k).1).Sublist kl := by
  induction kl with
  | nil => simp [kvlRemove]
  | cons e rest ih =>
    unfold kvlRemove
    by_cases h : k = e.Key
    · simp only [if_pos h]
      exact (List.sublist_cons_self e rest)
    · simp only [if_neg h]
      exact List.Sublist.cons₂ e ih

theorem strict_nodup_keys {kl : tKeyValList} (h : StrictKl kl) :
    (kl.map tKeyVal.Key).Nodup := by
  have : (kl.map tKeyVal.Key).Pairwise (fun a b => a ≠ b) := by
    apply List.Pairwise.map
    · intro a b hab
      exact ltStr_ne hab
    · exact h
  exact this

theorem kvlValue_of_mem {kl : tKeyValList} {kv : tKeyVal}
    (hn : (kl.map tKeyVal.Key).Nodup) (hm : kv ∈ kl) :
    kvlValue kl kv.Key = some kv.Value := by
  induction kl with
  | nil => simp at hm
  | cons e rest ih =>
    rcases List.mem_cons.mp hm with hm | hm
    · simp [kvlValue, hm]
    · have hne : kv.Key ≠ e.Key := by
        intro hc
        have : e.Key ∈ rest.map tKeyVal.Key := by
          rw [← hc]
          exact List.mem_map_of_mem tKeyVal.Key hm
        exact (List.nodup_cons.mp (by simpa using hn)).1 this
      unfold kvlValue
      rw [if_neg hne]
      exact ih (List.nodup_cons.mp (by simpa using hn)).2 hm

theorem kvlCompareTo_refl {kl : tKeyValList}
    (h : (kl.map tKeyVal.Key).Nodup) : kvlCompareTo kl kl = true := by
  unfold kvlCompareTo
  rw [Bool.and_eq_true]
  constructor
  · simp
  · rw [List.all_eq_true]
    intro kv hm
    rw [kvlValue_of_mem h hm]
    simp

/-! Facts about the association-list model of the section map. -/

theorem mapGet_isSome_iff {m : List (Str × tKeyValList)} {n : Str} :
    (mapGet m n).isSome = true ↔ n ∈ m.map Prod.fst := by
  induction m with
  | nil => simp [mapGet]
  | cons e rest ih =>
    unfold mapGet
    by_cases h : e.1 = n
    · simp [h]
    · simp only [if_neg h, List.map_cons, List.mem_cons]
      rw [ih]
      constructor
      · intro hr
        exact Or.inr hr
      · intro hr
        rcases hr with hr | hr
        · exact absurd hr.symm h
        · exact hr

theorem mapGet_mapSet_self (m : List (Str × tKeyValList)) (n : Str)
    (kl : tKeyValList) : mapGet (mapSet m n kl) n = some kl := by
  induction m with
  | nil => simp [mapSet, mapGet]
  | cons e rest ih =>
    unfold mapSet
    by_cases h : e.1 = n
    · simp [mapGet, h]
    · simp [mapGet, h, ih]

theorem mapGet_mapSet_ne {m : List (Str × tKeyValList)} {n n2 : Str}
    (kl : tKeyValList) (h : n2 ≠ n) :
    mapGet (mapSet m n kl) n2 = mapGet m n2 := by
  have hn2 : ¬ (n = n2) := fun hc => h hc.symm
  induction m with
  | nil =>
    simp only [mapSet, mapGet]
    rw [if_neg hn2]
  | cons e rest ih =>
    simp only [mapSet]
    by_cases he : e.1 = n
    · rw [if_pos he]
      simp only [mapGet]
      rw [if_neg hn2, if_neg (show ¬ e.1 = n2 by rw [he]; exact hn2)]
    · rw [if_neg he]
      simp only [mapGet]
      by_cases he2 : e.1 = n2
      · rw [if_pos he2, if_pos he2]
      · rw [if_neg he2, if_neg he2]
        exact ih

theorem map_fst_mapSet (m : List (Str × tKeyValList)) (n : Str)
    (kl : tKeyValList) :
    (mapSet m n kl).map Prod.fst =
      if n ∈ m.map Prod.fst then m.map Prod.fst else m.map Prod.fst ++ [n] := by
  induction m with
  | nil => simp [mapSet]
  | cons e rest ih =>
    unfold mapSet
    by_cases h : e.1 = n
    · simp [h]
    · have hne : ¬ (n = e.1) := fun hc => h hc.symm
      by_cases hm : n ∈ rest.map Prod.fst
      · simp [h, hne, hm, ih]
      · simp [h, hne, hm, ih]

theorem mem_mapSet {m : List (Str × tKeyValList)} {n : Str}
    {kl : tKeyValList} {e : Str × tKeyValList} (h : e ∈ mapSet m n kl) :
    e = (n, kl) ∨ e ∈ m := by
  induction m with
  | nil =>
    simp only [mapSet, List.mem_singleton] at h
    exact Or.inl h
  | cons x rest ih =>
    unfold mapSet at h
    by_cases hx : x.1 = n
    · rw [if_pos hx] at h
      rcases List.mem_cons.mp h with h | h
      · exact Or.inl h
      · exact Or.inr (by simp [h])
    · rw [if_neg hx] at h
      rcases List.mem_cons.mp h with h | h
      · exact Or.inr (by simp [h])
      · rcases ih h with h2 | h2
        · exact Or.inl h2
        · exact Or.inr (by simp [h2])

theorem mapErase_sublist (m : List (Str × tKeyValList)) (n : Str) :
    (mapErase m n).Sublist m := by
  induction m with
  | nil => simp [mapErase]
  | cons e rest ih =>
    unfold mapErase
    by_cases h : e.1 = n
    · rw [if_pos h]
      exact List.sublist_cons_self e rest
    · rw [if_neg h]
      exact List.Sublist.cons₂ e ih

theorem map_fst_mapErase (m : List (Str × tKeyValList)) (n : Str) :
    (mapErase m n).map Prod.fst = (m.map Prod.fst).erase n := by
  induction m with
  | nil => simp [mapErase]
  | cons e rest ih =>
    unfold mapErase
    by_cases h : e.1 = n
    · rw [if_pos h]
      simp [List.erase_cons, h]
    · rw [if_neg h]
      simp [List.erase_cons, h, ih]

theorem mapGet_mapErase_self {m : List (Str × tKeyValList)} {n : Str}
    (hn : (m.map Prod.fst).Nodup) : mapGet (mapErase m n) n = none := by
  induction m with
  | nil => simp [mapErase, mapGet]
  | cons e rest ih =>
    unfold mapErase
    by_cases h : e.1 = n
    · rw [if_pos h]
      cases hg : mapGet rest n with
      | none => rfl
      | some kl =>
        exfalso
        have hmem : n ∈ rest.map Prod.fst := by
          rw [← mapGet_isSome_iff]
          simp [hg]
        rw [← h] at hmem
        exact (List.nodup_cons.mp (by simpa using hn)).1 hmem
    · rw [if_neg h]
      unfold mapGet
      rw [if_neg h]
      exact ih (List.nodup_cons.mp (by simpa using hn)).2

theorem mapGet_mapErase_ne {m : List (Str × tKeyValList)} {n n2 : Str}
    (h : n2 ≠ n) : mapGet (mapErase m n) n2 = mapGet m n2 := by
  induction m with
  | nil => simp [mapErase]
  | cons e rest ih =>
    unfold mapErase
    by_cases he : e.1 = n
    · rw [if_pos he]
      conv_rhs => simp only [mapGet]
      rw [if_neg (by rw [he]; exact fun hc => h hc.symm)]
    · rw [if_neg he]
      simp only [mapGet]
      by_cases he2 : e.1 = n2
      · rw [if_pos he2, if_pos he2]
      · rw [if_neg he2, if_neg he2]
        exact ih

theorem mapGet_eq_of_mem {m : List (Str × tKeyValList)}
    {e : Str × tKeyValList} (hn : (m.map Prod.fst).Nodup) (hm : e ∈ m) :
    mapGet m e.1 = some e.2 := by
  induction m with
  | nil => simp at hm
  | cons x rest ih =>
    rcases List.mem_cons.mp hm with hm | hm
    · simp [mapGet, hm]
    · unfold mapGet
      by_cases hx : x.1 = e.1
      · exfalso
        have : e.1 ∈ rest.map Prod.fst := List.mem_map_of_mem Prod.fst hm
        rw [← hx] at this
        exact (List.nodup_cons.mp (by simpa using hn)).1 this
      · rw [if_neg hx]
        exact ih (List.nodup_cons.mp (by simpa using hn)).2 hm

theorem mem_of_mapGet_eq_some {m : List (Str × tKeyValList)} {n : Str}
    {kl : tKeyValList} (h : mapGet m n = some kl) : (n, kl) ∈ m := by
  induction m with
  | nil => simp [mapGet] at h
  | cons e rest ih =>
    unfold mapGet at h
    by_cases he : e.1 = n
    · rw [if_pos he] at h
      have : e = (n, kl) := by
        cases e
        simp at he h
        simp [he, h]
      simp [← this]
    · rw [if_neg he] at h
      exact List.mem_cons_of_mem e (ih h)

/-! Idempotence of removal, and the frame property of `GetSection`. -/

theorem kvlRemove_not_found {kl : tKeyValList} {k : Str}
    (h : kvlHasKey kl k = false) : kvlRemove kl k = (kl, false) := by
  induction kl with
  | nil => rfl
  | cons e rest ih =>
    unfold kvlHasKey at h
    unfold kvlRemove
    by_cases he : k = e.Key
    · rw [if_pos he] at h
      simp at h
    · rw [if_neg he] at h
      rw [if_neg he, ih h]

theorem mapSet_self {m : List (Str × tKeyValList)} {n : Str}
    {kl : tKeyValList} (h : mapGet m n = some kl) : mapSet m n kl = m := by
  induction m with
  | nil => simp [mapGet] at h
  | cons e rest ih =>
    unfold mapGet at h
    unfold mapSet
    by_cases he : e.1 = n
    · rw [if_pos he] at h
      rw [if_pos he]
      have : (n, kl) = e := by
        cases e
        simp at he h ⊢
        exact ⟨he.symm, h.symm⟩
      rw [this]
    · rw [if_neg he] at h
      rw [if_neg he, ih h]

/-- C9: removing an absent section succeeds and leaves the store intact,
and removing a key whose section or key is absent succeeds and leaves
the store intact. -/
theorem C9_remove_idempotent (sl : TSectionList) (s k : Str) :
    (HasSection sl s = false → RemoveSection sl s = (sl, true)) ∧
    (HasSectionKey sl s k = false → RemoveSectionKey sl s k = (sl, true)) := by
  constructor
  · intro h
    unfold HasSection at h
    simp only [RemoveSection]
    cases hg : mapGet sl.sections (normSect sl s) with
    | none => rfl
    | some kl => rw [hg] at h; simp at h
  · intro h
    simp only [HasSectionKey] at h
    simp only [RemoveSectionKey]
    by_cases hk : goTrim k = []
    · rw [if_pos hk]
    · rw [if_neg hk]
      rw [if_neg hk] at h
      cases hg : mapGet sl.sections (normSect sl s) with
      | none => rfl
      | some kl =>
        rw [hg] at h
        have hkk : kvlHasKey kl (goTrim k) = false := by
          simp only [secHasKey] at h
          rw [goTrim_idem] at h
          rw [if_neg hk] at h
          exact h
        simp only [secRemoveKey]
        rw [kvlRemove_not_found hkk]
        show ({ sl with sections := mapSet sl.sections (normSect sl s) kl }, true) =
          (sl, true)
        rw [mapSet_self hg]

/-- C9 witness at a concrete store and names. -/
theorem C9_remove_idempotent_witness :
    RemoveSection NewSectionList "X".data = (NewSectionList, true) ∧
    RemoveSectionKey NewSectionList "X".data "k".data = (NewSectionList, true) :=
  ⟨(C9_remove_idempotent NewSectionList "X".data "k".data).1 (by decide),
   (C9_remove_idempotent NewSectionList "X".data "k".data).2 (by decide)⟩

/-- C10: on an absent name `GetSection` hands back a fresh empty section
that aliases nothing, so adding a key through it leaves the store
untouched: the store value, `HasSection`, `secOrder` and the serialized
text are all unchanged. -/
theorem C10_getSection_fresh (sl : TSectionList) (s : Str)
    (h : mapGet sl.sections (normSect sl s) = none) :
    GetSection sl s = [] ∧
    GetSectionRef sl s = SectionRef.fresh [] ∧
    ∀ k v,
      (addKeyThrough sl (GetSectionRef sl s) k v).1 = sl ∧
      HasSection ((addKeyThrough sl (GetSectionRef sl s) k v).1) s = false ∧
      ((addKeyThrough sl (GetSectionRef sl s) k v).1).secOrder = sl.secOrder ∧
      storeString ((addKeyThrough sl (GetSectionRef sl s) k v).1) =
        storeString sl := by
  have href : GetSectionRef sl s = SectionRef.fresh [] := by
    unfold GetSectionRef
    rw [h]
  refine ⟨?_, href, ?_⟩
  · unfold GetSection
    rw [h]
  · intro k v
    rw [href]
    refine ⟨rfl, ?_, rfl, rfl⟩
    show (mapGet sl.sections (normSect sl s)).isSome = false
    rw [h]
    rfl

/-- C10 witness at a concrete store and name. -/
theorem C10_getSection_fresh_witness :
    GetSection NewSectionList "A".data = [] ∧
    GetSectionRef NewSectionList "A".data = SectionRef.fresh [] ∧
    ∀ k v,
      (addKeyThrough NewSectionList (GetSectionRef NewSectionList "A".data) k v).1 =
        NewSectionList ∧
      HasSection
        ((addKeyThrough NewSectionList (GetSectionRef NewSectionList "A".data) k v).1)
        "A".data = false ∧
      ((addKeyThrough NewSectionList
        (GetSectionRef NewSectionList "A".data) k v).1).secOrder =
        NewSectionList.secOrder ∧
      storeString
        ((addKeyThrough NewSectionList (GetSectionRef NewSectionList "A".data) k v).1) =
        storeString NewSectionList :=
  C10_getSection_fresh NewSectionList "A".data (by decide)

/-! Parser panic on a blank or comment line closing a continuation. -/

/-- C3 (code bug): the loop of `read` does not refresh `lineLen` after
swapping the pending continuation buffer into `line`, so a blank line
arriving while a continuation is pending indexes the line at position
minus one — a runtime panic, where the claim promises the parse never
fails on any line sequence. -/
theorem C3_read_panics_on_blank_after_continuation :
    parseDoc ["a \\".data, "".data] = none := by decide

/-- C4 (code bug): the continuation rule itself is implemented as
claimed — the two documented space cases both produce the single pair
`key = part1 part2` — but a blank line arriving while a buffer is
pending panics on the stale length instead of emitting the pending
line. -/
theorem C4_continuation_rule :
    (parseDoc ["key = part1 \\".data, "part2".data] =
      some { defSect := "Default".data, fName := [],
             secOrder := ["Default".data],
             sections := [("Default".data,
               [⟨"key".data, "part1 part2".data⟩])] }) ∧
    (parseDoc ["key = part1\\".data, "part2".data] =
      some { defSect := "Default".data, fName := [],
             secOrder := ["Default".data],
             sections := [("Default".data,
               [⟨"key".data, "part1 part2".data⟩])] }) ∧
    parseDoc ["key = part1 \\".data, "".data] = none := by
  refine ⟨by decide, by decide, by decide⟩

/-! Explicit update equations for the add/update entry points. -/

theorem mapGet_append_of_none {m : List (Str × tKeyValList)} {n : Str}
    (kl : tKeyValList) (h : mapGet m n = none) :
    mapGet (m ++ [(n, kl)]) n = some kl := by
  induction m with
  | nil => simp [mapGet]
  | cons e rest ih =>
    unfold mapGet at h
    by_cases he : e.1 = n
    · rw [if_pos he] at h
      exact absurd h (by simp)
    · rw [if_neg he] at h
      simp only [List.cons_append, mapGet]
      rw [if_neg he]
      exact ih h

theorem mapSet_append_of_none {m : List (Str × tKeyValList)} {n : Str}
    (kl0 kl : tKeyValList) (h : mapGet m n = none) :
    mapSet (m ++ [(n, kl0)]) n kl = m ++ [(n, kl)] := by
  induction m with
  | nil => simp [mapSet]
  | cons e rest ih =>
    unfold mapGet at h
    by_cases he : e.1 = n
    · rw [if_pos he] at h
      exact absurd h (by simp)
    · rw [if_neg he] at h
      simp only [List.cons_append, mapSet]
      rw [if_neg he]
      exact congrArg (fun l => e :: l) (ih h)

theorem normSect_idem {sl : TSectionList} (hd : goTrim sl.defSect = sl.defSect)
    (s : Str) : normSect sl (normSect sl s) = normSect sl s := by
  unfold normSect
  by_cases hs : goTrim s = []
  · rw [if_pos hs, hd]
    by_cases h2 : sl.defSect = []
    · rw [if_pos h2, h2]
    · rw [if_neg h2]
  · rw [if_neg hs, goTrim_idem, if_neg hs]

theorem AddSectionKey_present {sl : TSectionList} {s k : Str} (v : Str)
    {kl : tKeyValList} (hk : goTrim k ≠ [])
    (hg : mapGet sl.sections (normSect sl s) = some kl) :
    AddSectionKey sl s k v =
      ({ sl with
          sections := mapSet sl.sections (normSect sl s)
                        (insR kl ⟨goTrim k, goTrim v⟩) },
       true) := by
  simp only [AddSectionKey]
  rw [if_neg hk]
  simp only [addSection, hg]
  simp only [secAddKey, goTrim_idem]
  rw [if_neg hk]
  rw [kvlInsert_eq_insR (by simp [goTrim_idem]) hk]

theorem AddSectionKey_absent {sl : TSectionList} {s k : Str} (v : Str)
    (hk : goTrim k ≠ [])
    (hg : mapGet sl.sections (normSect sl s) = none) :
    AddSectionKey sl s k v =
      ({ sl with
          secOrder := sl.secOrder ++ [normSect sl s],
          sections := sl.sections ++ [(normSect sl s, [⟨goTrim k, goTrim v⟩])] },
       true) := by
  simp only [AddSectionKey]
  rw [if_neg hk]
  simp only [addSection]
  rw [hg]
  simp only []
  rw [mapGet_append_of_none [] hg]
  simp only [secAddKey, goTrim_idem]
  rw [if_neg hk]
  rw [kvlInsert_eq_insR (by simp [goTrim_idem]) hk]
  simp only [insR]
  rw [mapSet_append_of_none [] _ hg]

theorem updateSectKey_present {sl : TSectionList} {s k : Str} (v : Str)
    {kl : tKeyValList} (hk : goTrim k ≠ [])
    (hg : mapGet sl.sections (normSect sl s) = some kl) :
    updateSectKey sl s k v =
      ({ sl with
          sections := mapSet sl.sections (normSect sl s)
                        (insR kl ⟨goTrim k, goTrim v⟩) },
       true) := by
  simp only [updateSectKey]
  rw [if_neg hk]
  rw [hg]
  simp only [secUpdateKey, secAddKey, goTrim_idem]
  rw [if_neg hk]
  rw [kvlInsert_eq_insR (by simp [goTrim_idem]) hk]

theorem updateSectKey_absent {sl : TSectionList} {s k : Str} (v : Str)
    (hd : goTrim sl.defSect = sl.defSect) (hk : goTrim k ≠ [])
    (hg : mapGet sl.sections (normSect sl s) = none) :
    updateSectKey sl s k v =
      ({ sl with
          secOrder := sl.secOrder ++ [normSect sl s],
          sections := sl.sections ++ [(normSect sl s, [⟨goTrim k, goTrim v⟩])] },
       true) := by
  simp only [updateSectKey]
  rw [if_neg hk]
  rw [hg]
  have h2 : mapGet sl.sections (normSect sl (normSect sl s)) = none := by
    rw [normSect_idem hd]
    exact hg
  rw [AddSectionKey_absent v (by rw [goTrim_idem]; exact hk) h2]
  rw [normSect_idem hd, goTrim_idem]

/-! Return values and effect of the add/update family. -/

/-- C8 counterexample: the key `" "` is a non-empty string, yet
`AddSectionKey` rejects it because the key is trimmed before the
emptiness test. -/
theorem C8_counterexample_blank_key :
    (AddSectionKey NewSectionList "sec".data " ".data "v".data).2 = false ∧
    " ".data ≠ ([] : Str) := by decide

/-- C8 (amended): `AddSectionKey` and the update family return `false`
exactly when the key trims to the empty string; for a key that does not,
they return `true`, create the (normalized) section if absent —
appending its name to `secOrder` — and insert-or-update the trimmed key
inside it with the trimmed stringified value. -/
theorem C8_add_update_family (sl : TSectionList) (s k v fr : Str) (b : Bool)
    (i : Int) (n : Nat) (hd : goTrim sl.defSect = sl.defSect) :
    ((AddSectionKey sl s k v).2 = false ↔ goTrim k = []) ∧
    ((UpdateSectKeyStr sl s k v).2 = false ↔ goTrim k = []) ∧
    ((UpdateSectKeyBool sl s k b).2 = false ↔ goTrim k = []) ∧
    ((UpdateSectKeyInt sl s k i).2 = false ↔ goTrim k = []) ∧
    ((UpdateSectKeyUInt sl s k n).2 = false ↔ goTrim k = []) ∧
    ((UpdateSectKeyFloat sl s k fr).2 = false ↔ goTrim k = []) ∧
    (goTrim k ≠ [] →
      (∃ kl, mapGet (AddSectionKey sl s k v).1.sections (normSect sl s) = some kl ∧
        kvlValue kl (goTrim k) = some (goTrim v)) ∧
      ((AddSectionKey sl s k v).1.secOrder =
        if HasSection sl s then sl.secOrder
        else sl.secOrder ++ [normSect sl s]) ∧
      (∃ kl, mapGet (updateSectKey sl s k v).1.sections (normSect sl s) = some kl ∧
        kvlValue kl (goTrim k) = some (goTrim v)) ∧
      ((updateSectKey sl s k v).1.secOrder =
        if HasSection sl s then sl.secOrder
        else sl.secOrder ++ [normSect sl s])) := by
  have haddsnd : (AddSectionKey sl s k v).2 = false ↔ goTrim k = [] := by
    by_cases hk : goTrim k = []
    · simp only [AddSectionKey]
      rw [if_pos hk]
      simp [hk]
    · cases hg : mapGet sl.sections (normSect sl s) with
      | some kl => rw [AddSectionKey_present v hk hg]; simp [hk]
      | none => rw [AddSectionKey_absent v hk hg]; simp [hk]
  have hupdsnd : ∀ w, (updateSectKey sl s k w).2 = false ↔ goTrim k = [] := by
    intro w
    by_cases hk : goTrim k = []
    · simp only [updateSectKey]
      rw [if_pos hk]
      simp [hk]
    · cases hg : mapGet sl.sections (normSect sl s) with
      | some kl => rw [updateSectKey_present w hk hg]; simp [hk]
      | none => rw [updateSectKey_absent w hd hk hg]; simp [hk]
  refine ⟨haddsnd, hupdsnd v, ?_, hupdsnd (goItoa i), hupdsnd (goItoa (Int.ofNat n)),
    hupdsnd fr, ?_⟩
  · cases b with
    | true => exact hupdsnd "True".data
    | false => exact hupdsnd "False".data
  · intro hk
    unfold HasSection
    cases hg : mapGet sl.sections (normSect sl s) with
    | some kl =>
      rw [AddSectionKey_present v hk hg, updateSectKey_present v hk hg]
      simp only [Option.isSome_some, if_pos]
      refine ⟨⟨insR kl ⟨goTrim k, goTrim v⟩, mapGet_mapSet_self _ _ _, ?_⟩, trivial,
        ⟨insR kl ⟨goTrim k, goTrim v⟩, mapGet_mapSet_self _ _ _, ?_⟩, trivial⟩
      · rw [insR_value]
        simp
      · rw [insR_value]
        simp
    | none =>
      rw [AddSectionKey_absent v hk hg, updateSectKey_absent v hd hk hg]
      simp only [Option.isSome_none]
      refine ⟨⟨[⟨goTrim k, goTrim v⟩], mapGet_append_of_none _ hg, ?_⟩, by simp,
        ⟨[⟨goTrim k, goTrim v⟩], mapGet_append_of_none _ hg, ?_⟩, by simp⟩
      · simp [kvlValue]
      · simp [kvlValue]

/-- C8 witness at a concrete store, section and key. -/
theorem C8_add_update_family_witness :
    ((AddSectionKey NewSectionList "A".data "k".data "v".data).2 = false ↔
      goTrim "k".data = []) ∧
    ((UpdateSectKeyStr NewSectionList "A".data "k".data "v".data).2 = false ↔
      goTrim "k".data = []) ∧
    ((UpdateSectKeyBool NewSectionList "A".data "k".data true).2 = false ↔
      goTrim "k".data = []) ∧
    ((UpdateSectKeyInt NewSectionList "A".data "k".data 7).2 = false ↔
      goTrim "k".data = []) ∧
    ((UpdateSectKeyUInt NewSectionList "A".data "k".data 7).2 = false ↔
      goTrim "k".data = []) ∧
    ((UpdateSectKeyFloat NewSectionList "A".data "k".data "7.0".data).2 = false ↔
      goTrim "k".data = []) ∧
    (goTrim "k".data ≠ [] →
      (∃ kl, mapGet (AddSectionKey NewSectionList "A".data "k".data "v".data).1.sections
          (normSect NewSectionList "A".data) = some kl ∧
        kvlValue kl (goTrim "k".data) = some (goTrim "v".data)) ∧
      ((AddSectionKey NewSectionList "A".data "k".data "v".data).1.secOrder =
        if HasSection NewSectionList "A".data then NewSectionList.secOrder
        else NewSectionList.secOrder ++ [normSect NewSectionList "A".data]) ∧
      (∃ kl, mapGet (updateSectKey NewSectionList "A".data "k".data "v".data).1.sections
          (normSect NewSectionList "A".data) = some kl ∧
        kvlValue kl (goTrim "k".data) = some (goTrim "v".data)) ∧
      ((updateSectKey NewSectionList "A".data "k".data "v".data).1.secOrder =
        if HasSection NewSectionList "A".data then NewSectionList.secOrder
        else NewSectionList.secOrder ++ [normSect NewSectionList "A".data])) :=
  C8_add_update_family NewSectionList "A".data "k".data "v".data "7.0".data
    true 7 7 (by decide)

/-! Preservation facts used by the default-section aliasing claim. -/

theorem normSect_ne_nil {sl : TSectionList} (hne : sl.defSect ≠ []) (s : Str) :
    normSect sl s ≠ [] := by
  unfold normSect
  by_cases hs : goTrim s = []
  · rw [if_pos hs]; exact hne
  · rw [if_neg hs]; exact hs

theorem AddSectionKey_fst_defSect (sl : TSectionList) (s k v : Str) :
    (AddSectionKey sl s k v).1.defSect = sl.defSect := by
  by_cases hk : goTrim k = []
  · simp only [AddSectionKey]
    rw [if_pos hk]
  · cases hg : mapGet sl.sections (normSect sl s) with
    | some kl => rw [AddSectionKey_present v hk hg]
    | none => rw [AddSectionKey_absent v hk hg]

theorem no_empty_AddSectionKey {sl : TSectionList} (s k v : Str)
    (hne : sl.defSect ≠ []) (h : [] ∉ sl.secOrder) :
    [] ∉ (AddSectionKey sl s k v).1.secOrder := by
  by_cases hk : goTrim k = []
  · simp only [AddSectionKey]
    rw [if_pos hk]
    exact h
  · cases hg : mapGet sl.sections (normSect sl s) with
    | some kl =>
      rw [AddSectionKey_present v hk hg]
      exact h
    | none =>
      rw [AddSectionKey_absent v hk hg]
      intro hc
      rcases List.mem_append.mp hc with hc | hc
      · exact h hc
      · exact normSect_ne_nil hne s (List.mem_singleton.mp hc).symm

theorem AddSectionKey_fst_secOrder_cases (sl : TSectionList) (s k v : Str) :
    (AddSectionKey sl s k v).1.secOrder = sl.secOrder ∨
    (AddSectionKey sl s k v).1.secOrder = sl.secOrder ++ [normSect sl s] := by
  by_cases hk : goTrim k = []
  · simp only [AddSectionKey]
    rw [if_pos hk]
    exact Or.inl rfl
  · cases hg : mapGet sl.sections (normSect sl s) with
    | some kl => rw [AddSectionKey_present v hk hg]; exact Or.inl rfl
    | none => rw [AddSectionKey_absent v hk hg]; exact Or.inr rfl

theorem updateSectKey_fst_defSect (sl : TSectionList) (s k v : Str) :
    (updateSectKey sl s k v).1.defSect = sl.defSect := by
  by_cases hk : goTrim k = []
  · simp only [updateSectKey]
    rw [if_pos hk]
  · simp only [updateSectKey]
    rw [if_neg hk]
    cases hg : mapGet sl.sections (normSect sl s) with
    | some kl => rfl
    | none => exact AddSectionKey_fst_defSect sl (normSect sl s) (goTrim k) v

theorem no_empty_updateSectKey {sl : TSectionList} (s k v : Str)
    (hne : sl.defSect ≠ []) (h : [] ∉ sl.secOrder) :
    [] ∉ (updateSectKey sl s k v).1.secOrder := by
  by_cases hk : goTrim k = []
  · simp only [updateSectKey]
    rw [if_pos hk]
    exact h
  · simp only [updateSectKey]
    rw [if_neg hk]
    cases hg : mapGet sl.sections (normSect sl s) with
    | some kl => exact h
    | none => exact no_empty_AddSectionKey _ _ _ hne h

theorem RemoveSection_fst_parts (sl : TSectionList) (s : Str) :
    (RemoveSection sl s).1.defSect = sl.defSect ∧
    ((RemoveSection sl s).1.secOrder = sl.secOrder ∨
     (RemoveSection sl s).1.secOrder = sl.secOrder.erase (normSect sl s)) := by
  simp only [RemoveSection]
  cases hg : mapGet sl.sections (normSect sl s) with
  | none => exact ⟨rfl, Or.inl rfl⟩
  | some kl =>
    by_cases h0 : sl.secOrder.length = 0
    · rw [if_pos h0]
      exact ⟨rfl, Or.inl rfl⟩
    · rw [if_neg h0]
      by_cases hm : normSect sl s ∈ sl.secOrder
      · rw [if_pos hm]
        exact ⟨rfl, Or.inr rfl⟩
      · rw [if_neg hm]
        exact ⟨rfl, Or.inl rfl⟩

theorem RemoveSectionKey_fst_parts (sl : TSectionList) (s k : Str) :
    (RemoveSectionKey sl s k).1.defSect = sl.defSect ∧
    (RemoveSectionKey sl s k).1.secOrder = sl.secOrder := by
  simp only [RemoveSectionKey]
  by_cases hk : goTrim k = []
  · rw [if_pos hk]
    exact ⟨rfl, rfl⟩
  · rw [if_neg hk]
    cases hg : mapGet sl.sections (normSect sl s) with
    | none => exact ⟨rfl, rfl⟩
    | some kl => exact ⟨rfl, rfl⟩

theorem applyOp_defSect (sl : TSectionList) (op : MutOp) :
    (applyOp sl op).defSect = sl.defSect := by
  cases op with
  | add s k v => exact AddSectionKey_fst_defSect sl s k v
  | remSec s => exact (RemoveSection_fst_parts sl s).1
  | remKey s k => exact (RemoveSectionKey_fst_parts sl s k).1
  | updStr s k v => exact updateSectKey_fst_defSect sl s k v
  | updBool s k b =>
    cases b with
    | true => exact updateSectKey_fst_defSect sl s k _
    | false => exact updateSectKey_fst_defSect sl s k _
  | updInt s k i => exact updateSectKey_fst_defSect sl s k _
  | updUInt s k n => exact updateSectKey_fst_defSect sl s k _
  | updFloat s k fr => exact updateSectKey_fst_defSect sl s k fr

theorem applyOp_no_empty {sl : TSectionList} (op : MutOp)
    (hne : sl.defSect ≠ []) (h : [] ∉ sl.secOrder) :
    [] ∉ (applyOp sl op).secOrder := by
  cases op with
  | add s k v => exact no_empty_AddSectionKey s k v hne h
  | remSec s =>
    show [] ∉ (RemoveSection sl s).1.secOrder
    rcases (RemoveSection_fst_parts sl s).2 with h2 | h2
    · rw [h2]; exact h
    · rw [h2]
      intro hc
      exact h (List.mem_of_mem_erase hc)
  | remKey s k =>
    show [] ∉ (RemoveSectionKey sl s k).1.secOrder
    rw [(RemoveSectionKey_fst_parts sl s k).2]
    exact h
  | updStr s k v => exact no_empty_updateSectKey s k v hne h
  | updBool s k b =>
    cases b with
    | true => exact no_empty_updateSectKey s k _ hne h
    | false => exact no_empty_updateSectKey s k _ hne h
  | updInt s k i => exact no_empty_updateSectKey s k _ hne h
  | updUInt s k n => exact no_empty_updateSectKey s k _ hne h
  | updFloat s k fr => exact no_empty_updateSectKey s k fr hne h

theorem applyOps_no_empty (ops : List MutOp) :
    ∀ sl : TSectionList, sl.defSect ≠ [] → [] ∉ sl.secOrder →
      [] ∉ (applyOps ops sl).secOrder := by
  induction ops with
  | nil => intro sl _ h; exact h
  | cons op rest ih =>
    intro sl hne h
    have hd2 : (applyOp sl op).defSect = sl.defSect := applyOp_defSect sl op
    exact ih (applyOp sl op) (by rw [hd2]; exact hne) (applyOp_no_empty op hne h)

/-- C6: with a trimmed non-empty default name, every entry point invoked
with the empty string behaves identically to the same entry point
invoked with the default name, and no sequence of entry-point mutations
on a fresh store ever stores the empty string as a section name. -/
theorem C6_default_aliasing (sl : TSectionList) (k v : Str)
    (hd : goTrim sl.defSect = sl.defSect) (hne : sl.defSect ≠ []) :
    AddSectionKey sl [] k v = AddSectionKey sl sl.defSect k v ∧
    GetSection sl [] = GetSection sl sl.defSect ∧
    HasSection sl [] = HasSection sl sl.defSect ∧
    HasSectionKey sl [] k = HasSectionKey sl sl.defSect k ∧
    RemoveSection sl [] = RemoveSection sl sl.defSect ∧
    RemoveSectionKey sl [] k = RemoveSectionKey sl sl.defSect k ∧
    updateSectKey sl [] k v = updateSectKey sl sl.defSect k v ∧
    ∀ ops : List MutOp, [] ∉ (applyOps ops NewSectionList).secOrder := by
  have hnorm : normSect sl [] = normSect sl sl.defSect := by
    unfold normSect
    rw [hd, if_neg hne]
    rfl
  refine ⟨?_, ?_, ?_, ?_, ?_, ?_, ?_, ?_⟩
  · simp only [AddSectionKey, hnorm]
  · simp only [GetSection, hnorm]
  · simp only [HasSection, hnorm]
  · simp only [HasSectionKey, hnorm]
  · simp only [RemoveSection, hnorm]
  · simp only [RemoveSectionKey, hnorm]
  · simp only [updateSectKey, hnorm]
  · intro ops
    exact applyOps_no_empty ops NewSectionList (by decide) (by simp [NewSectionList])

/-- C6 witness at a concrete store. -/
theorem C6_default_aliasing_witness :
    AddSectionKey NewSectionList [] "k".data "v".data =
      AddSectionKey NewSectionList NewSectionList.defSect "k".data "v".data ∧
    GetSection NewSectionList [] = GetSection NewSectionList NewSectionList.defSect ∧
    HasSection NewSectionList [] = HasSection NewSectionList NewSectionList.defSect ∧
    HasSectionKey NewSectionList [] "k".data =
      HasSectionKey NewSectionList NewSectionList.defSect "k".data ∧
    RemoveSection NewSectionList [] =
      RemoveSection NewSectionList NewSectionList.defSect ∧
    RemoveSectionKey NewSectionList [] "k".data =
      RemoveSectionKey NewSectionList NewSectionList.defSect "k".data ∧
    updateSectKey NewSectionList [] "k".data "v".data =
      updateSectKey NewSectionList NewSectionList.defSect "k".data "v".data ∧
    ∀ ops : List MutOp, [] ∉ (applyOps ops NewSectionList).secOrder :=
  C6_default_aliasing NewSectionList "k".data "v".data (by decide) (by decide)

/-! The order invariant under `AddSectionKey` and `RemoveSection`. -/

theorem mapGet_append (m m2 : List (Str × tKeyValList)) (n : Str) :
    mapGet (m ++ m2) n =
      match mapGet m n with
      | some kl => some kl
      | none => mapGet m2 n := by
  induction m with
  | nil => simp [mapGet]
  | cons e rest ih =>
    simp only [List.cons_append, mapGet]
    by_cases he : e.1 = n
    · rw [if_pos he, if_pos he]
    · rw [if_neg he, if_neg he]
      exact ih

theorem RemoveSection_none {sl : TSectionList} {s : Str}
    (hg : mapGet sl.sections (normSect sl s) = none) :
    RemoveSection sl s = (sl, true) := by
  simp only [RemoveSection]
  rw [hg]

theorem RemoveSection_found {sl : TSectionList} {s : Str} {kl : tKeyValList}
    (hg : mapGet sl.sections (normSect sl s) = some kl)
    (h0 : ¬ sl.secOrder.length = 0) (hm : normSect sl s ∈ sl.secOrder) :
    RemoveSection sl s =
      ({ sl with
          secOrder := sl.secOrder.erase (normSect sl s),
          sections := mapErase sl.sections (normSect sl s) },
       true) := by
  simp only [RemoveSection]
  rw [hg]
  simp only [if_neg h0, if_pos hm]

theorem arStep_inv {sl : TSectionList} (op : ArOp) (h : ArInv sl) :
    ArInv (applyArOp sl op) ∧
    (applyArOp sl op).secOrder = aliveStep sl.secOrder op := by
  obtain ⟨hdef, hord, hfst, hbij⟩ := h
  have hnormD : ∀ s, normSect sl s = normD s := by
    intro s
    unfold normSect normD
    rw [hdef]
  cases op with
  | add s k v =>
    show ArInv (AddSectionKey sl s k v).1 ∧
      (AddSectionKey sl s k v).1.secOrder = aliveStep sl.secOrder (ArOp.add s k v)
    by_cases hk : goTrim k = []
    · have hres : (AddSectionKey sl s k v).1 = sl := by
        simp only [AddSectionKey]
        rw [if_pos hk]
      rw [hres]
      simp only [aliveStep]
      rw [if_pos hk]
      exact ⟨⟨hdef, hord, hfst, hbij⟩, rfl⟩
    · cases hg : mapGet sl.sections (normSect sl s) with
      | some kl =>
        rw [AddSectionKey_present v hk hg]
        have hmem : normSect sl s ∈ sl.secOrder := by
          rw [hbij, hg]
          rfl
        constructor
        · refine ⟨hdef, hord, ?_, ?_⟩
          · rw [map_fst_mapSet]
            rw [if_pos (mapGet_isSome_iff.mp (by rw [hg]; rfl))]
            exact hfst
          · intro n
            by_cases hn : n = normSect sl s
            · subst hn
              rw [mapGet_mapSet_self]
              simpa using hmem
            · rw [mapGet_mapSet_ne _ hn]
              exact hbij n
        · simp only [aliveStep]
          rw [if_neg hk, ← hnormD s, if_pos hmem]
      | none =>
        rw [AddSectionKey_absent v hk hg]
        have hnm : normSect sl s ∉ sl.secOrder := by
          rw [hbij, hg]
          simp
        have hnf : normSect sl s ∉ sl.sections.map Prod.fst := by
          rw [← mapGet_isSome_iff]
          rw [hg]
          simp
        have hdisj1 : ∀ a, a ∈ sl.secOrder → a ∈ [normSect sl s] → False := by
          intro a ha hb
          rw [List.mem_singleton] at hb
          rw [hb] at ha
          exact hnm ha
        have hdisj2 : ∀ a, a ∈ sl.sections.map Prod.fst →
            a ∈ ([(normSect sl s, [(⟨goTrim k, goTrim v⟩ : tKeyVal)])] :
              List (Str × tKeyValList)).map Prod.fst → False := by
          intro a ha hb
          simp only [List.map_cons, List.map_nil, List.mem_singleton] at hb
          rw [hb] at ha
          exact hnf ha
        constructor
        · refine ⟨hdef, ?_, ?_, ?_⟩
          · exact List.Nodup.append hord (List.nodup_singleton _) hdisj1
          · rw [List.map_append]
            exact List.Nodup.append hfst (by simp) hdisj2
          · intro n
            rw [List.mem_append, mapGet_append]
            by_cases hn : n = normSect sl s
            · subst hn
              rw [hg]
              simp [mapGet]
            · have hn2 : ¬ normSect sl s = n := fun hc => hn hc.symm
              cases hgn : mapGet sl.sections n with
              | some kl2 =>
                simp only []
                have : n ∈ sl.secOrder := by rw [hbij, hgn]; rfl
                simp [this, hgn]
              | none =>
                have : n ∉ sl.secOrder := by rw [hbij, hgn]; simp
                simp [this, hn, mapGet, hn2, hgn]
        · simp only [aliveStep]
          rw [if_neg hk, ← hnormD s, if_neg hnm]
  | remove s =>
    show ArInv (RemoveSection sl s).1 ∧
      (RemoveSection sl s).1.secOrder = aliveStep sl.secOrder (ArOp.remove s)
    cases hg : mapGet sl.sections (normSect sl s) with
    | none =>
      rw [RemoveSection_none hg]
      have hnm : normSect sl s ∉ sl.secOrder := by
        rw [hbij, hg]
        simp
      constructor
      · exact ⟨hdef, hord, hfst, hbij⟩
      · simp only [aliveStep]
        rw [← hnormD s, List.erase_of_not_mem hnm]
    | some kl =>
      have hmem : normSect sl s ∈ sl.secOrder := by
        rw [hbij, hg]
        rfl
      have h0 : ¬ sl.secOrder.length = 0 := by
        intro hc
        rw [List.length_eq_zero] at hc
        rw [hc] at hmem
        simp at hmem
      rw [RemoveSection_found hg h0 hmem]
      constructor
      · refine ⟨hdef, List.Nodup.erase _ hord, ?_, ?_⟩
        · rw [map_fst_mapErase]
          exact List.Nodup.erase _ hfst
        · intro n
          by_cases hn : n = normSect sl s
          · subst hn
            rw [mapGet_mapErase_self hfst]
            constructor
            · intro hc
              exact absurd hc (List.Nodup.not_mem_erase hord)
            · intro hc
              simp at hc
          · rw [mapGet_mapErase_ne hn]
            rw [List.Nodup.mem_erase_iff hord]
            rw [hbij n]
            constructor
            · intro hc
              exact hc.2
            · intro hc
              exact ⟨hn, hc⟩
      · simp only [aliveStep]
        rw [← hnormD s]

theorem arFold_inv (ops : List ArOp) :
    ∀ sl : TSectionList, ArInv sl →
      ArInv (applyArOps ops sl) ∧
      (applyArOps ops sl).secOrder = List.foldl aliveStep sl.secOrder ops := by
  induction ops with
  | nil => intro sl h; exact ⟨h, rfl⟩
  | cons op rest ih =>
    intro sl h
    have hstep := arStep_inv op h
    have hrec := ih (applyArOp sl op) hstep.1
    refine ⟨hrec.1, ?_⟩
    show (applyArOps rest (applyArOp sl op)).secOrder = _
    rw [hrec.2, hstep.2]
    rfl

/-- C2: after any sequence of `AddSectionKey` and `RemoveSection` calls
on a fresh store, `secOrder` equals the reference list of distinct
effectively-added and not-removed names, is duplicate-free, is in
bijection with the key set of the section map, and its length counts
those names. -/
theorem C2_order_invariant (ops : List ArOp) :
    (applyArOps ops NewSectionList).secOrder = aliveNames ops ∧
    (applyArOps ops NewSectionList).secOrder.Nodup ∧
    (∀ n, n ∈ (applyArOps ops NewSectionList).secOrder ↔
      (mapGet (applyArOps ops NewSectionList).sections n).isSome = true) ∧
    (applyArOps ops NewSectionList).secOrder.length = (aliveNames ops).length := by
  have hInv : ArInv NewSectionList := by
    refine ⟨rfl, by simp [NewSectionList], by simp [NewSectionList], ?_⟩
    intro n
    simp [NewSectionList, mapGet]
  have h := arFold_inv ops NewSectionList hInv
  have heq : (applyArOps ops NewSectionList).secOrder = aliveNames ops := h.2
  exact ⟨heq, h.1.2.1, h.1.2.2.2, by rw [heq]⟩

/-! Key uniqueness through sortedness of every section. -/

theorem sorted_AddSectionKey {sl : TSectionList} (s k v : Str)
    (h : SortedStore sl) : SortedStore (AddSectionKey sl s k v).1 := by
  by_cases hk : goTrim k = []
  · have hres : (AddSectionKey sl s k v).1 = sl := by
      simp only [AddSectionKey]
      rw [if_pos hk]
    rw [hres]
    exact h
  · cases hg : mapGet sl.sections (normSect sl s) with
    | some kl =>
      rw [AddSectionKey_present v hk hg]
      intro e he
      rcases mem_mapSet he with he | he
      · rw [he]
        exact insR_strict (h _ (mem_of_mapGet_eq_some hg))
      · exact h e he
    | none =>
      rw [AddSectionKey_absent v hk hg]
      intro e he
      rcases List.mem_append.mp he with he | he
      · exact h e he
      · rw [List.mem_singleton.mp he]
        simp [StrictKl]

theorem sorted_updateSectKey {sl : TSectionList} (s k v : Str)
    (h : SortedStore sl) : SortedStore (updateSectKey sl s k v).1 := by
  simp only [updateSectKey]
  by_cases hk : goTrim k = []
  · rw [if_pos hk]
    exact h
  · rw [if_neg hk]
    cases hg : mapGet sl.sections (normSect sl s) with
    | some kl =>
      intro e he
      rcases mem_mapSet he with he | he
      · rw [he]
        show StrictKl (secUpdateKey kl (goTrim k) v).1
        simp only [secUpdateKey, secAddKey, goTrim_idem]
        rw [if_neg hk, kvlInsert_eq_insR (by simp [goTrim_idem]) hk]
        exact insR_strict (h _ (mem_of_mapGet_eq_some hg))
      · exact h e he
    | none => exact sorted_AddSectionKey _ _ _ h

theorem sorted_RemoveSection {sl : TSectionList} (s : Str)
    (h : SortedStore sl) : SortedStore (RemoveSection sl s).1 := by
  simp only [RemoveSection]
  cases hg : mapGet sl.sections (normSect sl s) with
  | none => exact h
  | some kl =>
    by_cases h0 : sl.secOrder.length = 0
    · rw [if_pos h0]
      intro e he
      exact h e ((mapErase_sublist _ _).subset he)
    · rw [if_neg h0]
      by_cases hm : normSect sl s ∈ sl.secOrder
      · rw [if_pos hm]
        intro e he
        exact h e ((mapErase_sublist _ _).subset he)
      · rw [if_neg hm]
        intro e he
        exact h e ((mapErase_sublist _ _).subset he)

theorem sorted_RemoveSectionKey {sl : TSectionList} (s k : Str)
    (h : SortedStore sl) : SortedStore (RemoveSectionKey sl s k).1 := by
  simp only [RemoveSectionKey]
  by_cases hk : goTrim k = []
  · rw [if_pos hk]
    exact h
  · rw [if_neg hk]
    cases hg : mapGet sl.sections (normSect sl s) with
    | none => exact h
    | some kl =>
      intro e he
      rcases mem_mapSet he with he | he
      · rw [he]
        show StrictKl (secRemoveKey kl (goTrim k)).1
        simp only [secRemoveKey]
        exact List.Pairwise.sublist (kvlRemove_sublist kl (goTrim k))
          (h _ (mem_of_mapGet_eq_some hg))
      · exact h e he

theorem sorted_applyOp {sl : TSectionList} (op : MutOp)
    (h : SortedStore sl) : SortedStore (applyOp sl op) := by
  cases op with
  | add s k v => exact sorted_AddSectionKey s k v h
  | remSec s => exact sorted_RemoveSection s h
  | remKey s k => exact sorted_RemoveSectionKey s k h
  | updStr s k v => exact sorted_updateSectKey s k v h
  | updBool s k b =>
    cases b with
    | true => exact sorted_updateSectKey s k _ h
    | false => exact sorted_updateSectKey s k _ h
  | updInt s k i => exact sorted_updateSectKey s k _ h
  | updUInt s k n => exact sorted_updateSectKey s k _ h
  | updFloat s k fr => exact sorted_updateSectKey s k fr h

theorem sorted_classifyLine {sl : TSectionList} (curSect line : Str)
    (h : SortedStore sl) : SortedStore (classifyLine sl curSect line).1 := by
  unfold classifyLine
  cases matchSection line with
  | some cap => exact h
  | none =>
    cases matchKeyVal line with
    | some kv => exact sorted_AddSectionKey _ _ _ h
    | none => exact h

theorem processLine_sl_cases {st : ReadState} {raw : Str} {st2 : ReadState}
    (h : processLine st raw = some st2) :
    st2.sl = st.sl ∨
    ∃ line, st2.sl = (classifyLine st.sl st.curSect line).1 := by
  simp only [processLine] at h
  repeat' split at h
  all_goals
    first
    | (cases Option.some.inj h; exact Or.inl rfl)
    | (cases Option.some.inj h; exact Or.inr ⟨_, rfl⟩)
    | (exact Option.noConfusion h)

theorem sorted_readLoop {st : ReadState} {lines : List Str} {st2 : ReadState}
    (h : readLoop st lines = some st2) (hs : SortedStore st.sl) :
    SortedStore st2.sl := by
  induction lines generalizing st with
  | nil =>
    unfold readLoop at h
    cases Option.some.inj h
    exact hs
  | cons l rest ih =>
    unfold readLoop at h
    cases hp : processLine st l with
    | none => rw [hp] at h; exact absurd h (by simp)
    | some stm =>
      rw [hp] at h
      have hm : SortedStore stm.sl := by
        rcases processLine_sl_cases hp with hc | ⟨line, hc⟩
        · rw [hc]; exact hs
        · rw [hc]; exact sorted_classifyLine _ _ hs
      exact ih h hm

/-- C7: no section of a store reachable by entry-point mutations from a
fresh store, and no section of a parsed store, contains two entries with
the same key. -/
theorem C7_unique_keys :
    (∀ ops : List MutOp, ∀ e ∈ (applyOps ops NewSectionList).sections,
      (e.2.map tKeyVal.Key).Nodup) ∧
    (∀ lines S, parseDoc lines = some S →
      ∀ e ∈ S.sections, (e.2.map tKeyVal.Key).Nodup) := by
  have hops : ∀ (ops : List MutOp) (sl : TSectionList), SortedStore sl →
      SortedStore (applyOps ops sl) := by
    intro ops
    induction ops with
    | nil => intro sl h; exact h
    | cons op rest ih => intro sl h; exact ih (applyOp sl op) (sorted_applyOp op h)
  constructor
  · intro ops e he
    have hnew : SortedStore NewSectionList := by
      intro e he
      simp [NewSectionList] at he
    exact strict_nodup_keys (hops ops NewSectionList hnew e he)
  · intro lines S hp e he
    simp only [parseDoc, readLines] at hp
    cases hl : readLoop
        { sl := NewSectionList, curSect := NewSectionList.defSect,
          lastLine := [], bytesRead := 0 } lines with
    | none => rw [hl] at hp; exact absurd hp (by simp)
    | some st2 =>
      rw [hl] at hp
      have hS : S = st2.sl := by
        simp at hp
        rw [← hp]
      have hsorted : SortedStore st2.sl :=
        sorted_readLoop hl (by intro e he; simp [NewSectionList] at he)
      rw [hS] at he
      exact strict_nodup_keys (hsorted e he)

/-- C7 witness at a concrete mutation sequence and a concrete document. -/
theorem C7_unique_keys_witness :
    (∀ e ∈ (applyOps
        [MutOp.add "A".data "k".data "v".data,
         MutOp.add "A".data "b".data "w".data] NewSectionList).sections,
      (e.2.map tKeyVal.Key).Nodup) ∧
    (∀ e ∈ (TSectionList.mk "Default".data [] ["Default".data]
        [("Default".data, [⟨"x".data, "1".data⟩])]).sections,
      (e.2.map tKeyVal.Key).Nodup) :=
  ⟨fun e he => C7_unique_keys.1 _ e he,
   fun e he => C7_unique_keys.2 ["x = 1".data] _ (by decide) e he⟩

/-! Merge semantics. -/

theorem kvlValue_some_mem {kl : tKeyValList} {k v : Str}
    (h : kvlValue kl k = some v) : (⟨k, v⟩ : tKeyVal) ∈ kl := by
  induction kl with
  | nil => simp [kvlValue] at h
  | cons e rest ih =>
    unfold kvlValue at h
    by_cases he : k = e.Key
    · rw [if_pos he] at h
      have hv : e.Value = v := by simpa using h
      have : (⟨k, v⟩ : tKeyVal) = e := by
        cases e
        simp at he hv ⊢
        exact ⟨he, hv.symm⟩
      rw [this]
      simp
    · rw [if_neg he] at h
      exact List.mem_cons_of_mem e (ih h)

theorem lookupValue_AddSectionKey_self {A : TSectionList} {n k0 : Str}
    (v0 : Str) (hn : goTrim n = n) (hnn : n ≠ []) (hk : goTrim k0 = k0)
    (hkn : k0 ≠ []) :
    lookupValue (AddSectionKey A n k0 v0).1 n k0 = some (goTrim v0) := by
  have hnorm : normSect A n = n := by
    unfold normSect
    rw [hn, if_neg hnn]
  have hk2 : goTrim k0 ≠ [] := by rw [hk]; exact hkn
  cases hg : mapGet A.sections (normSect A n) with
  | some kl =>
    rw [AddSectionKey_present v0 hk2 hg]
    unfold lookupValue
    rw [hnorm] at hg
    simp only []
    rw [hnorm, mapGet_mapSet_self]
    show kvlValue (insR kl ⟨goTrim k0, goTrim v0⟩) k0 = some (goTrim v0)
    rw [insR_value]
    simp [hk]
  | none =>
    rw [AddSectionKey_absent v0 hk2 hg]
    unfold lookupValue
    simp only []
    rw [hnorm] at hg
    rw [hnorm, mapGet_append_of_none _ hg]
    show kvlValue [⟨goTrim k0, goTrim v0⟩] k0 = some (goTrim v0)
    simp [kvlValue, hk]

theorem lookupValue_AddSectionKey_ne {A : TSectionList} {n k0 s k : Str}
    (v0 : Str) (hn : goTrim n = n) (hnn : n ≠ [])
    (hk : goTrim k0 = k0) (hne : ¬(n = s ∧ k0 = k)) :
    lookupValue (AddSectionKey A n k0 v0).1 s k = lookupValue A s k := by
  have hnorm : normSect A n = n := by
    unfold normSect
    rw [hn, if_neg hnn]
  by_cases hk0 : goTrim k0 = []
  · have hres : (AddSectionKey A n k0 v0).1 = A := by
      simp only [AddSectionKey]
      rw [if_pos hk0]
    rw [hres]
  · cases hg : mapGet A.sections (normSect A n) with
    | some kl =>
      rw [AddSectionKey_present v0 hk0 hg]
      unfold lookupValue
      simp only []
      rw [hnorm] at hg
      rw [hnorm]
      by_cases hs : n = s
      · subst hs
        rw [mapGet_mapSet_self, hg]
        have hkk : ¬ k = k0 := by
          intro hc
          exact hne ⟨rfl, hc.symm⟩
        show kvlValue (insR kl ⟨goTrim k0, goTrim v0⟩) k = kvlValue kl k
        rw [insR_value]
        simp only [hk]
        rw [if_neg hkk]
      · rw [mapGet_mapSet_ne _ (fun hc => hs hc.symm)]
    | none =>
      rw [AddSectionKey_absent v0 hk0 hg]
      unfold lookupValue
      simp only []
      rw [hnorm] at hg
      rw [hnorm, mapGet_append]
      cases hgs : mapGet A.sections s with
      | some kl2 => rfl
      | none =>
        simp only []
        by_cases hs : n = s
        · subst hs
          rw [show mapGet [(n, [(⟨goTrim k0, goTrim v0⟩ : tKeyVal)])] n =
              some [(⟨goTrim k0, goTrim v0⟩ : tKeyVal)] from by simp [mapGet]]
          have hkk : ¬ k = k0 := by
            intro hc
            exact hne ⟨rfl, hc.symm⟩
          show kvlValue [(⟨goTrim k0, goTrim v0⟩ : tKeyVal)] k = none
          simp only [kvlValue, hk]
          rw [if_neg hkk]
        · rw [show mapGet [(n, [(⟨goTrim k0, goTrim v0⟩ : tKeyVal)])] s =
              none from by simp [mapGet, hs]]

theorem mergeFold_preserve :
    ∀ (ps : List (Str × Str × Str)) (T : TSectionList) (s k : Str),
      PairsWF ps → (∀ v, (s, k, v) ∉ ps) →
      lookupValue (mergeFold ps T) s k = lookupValue T s k := by
  intro ps
  induction ps with
  | nil => intro T s k _ _; rfl
  | cons p rest ih =>
    intro T s k hwf habs
    obtain ⟨hp1, hp2, hp3, hp4, _⟩ := hwf p (by simp)
    have hne : ¬(p.1 = s ∧ p.2.1 = k) := by
      intro hc
      exact habs p.2.2 (by
        have hp : p = (s, k, p.2.2) := by
          obtain ⟨a, b, c⟩ := p
          simp at hc ⊢
          exact ⟨hc.1, hc.2⟩
        rw [← hp]
        simp)
    show lookupValue (mergeFold rest (AddSectionKey T p.1 p.2.1 p.2.2).1) s k = _
    rw [ih (AddSectionKey T p.1 p.2.1 p.2.2).1 s k
        (fun q hq => hwf q (by simp [hq]))
        (fun v hv => habs v (by simp [hv]))]
    exact lookupValue_AddSectionKey_ne p.2.2 hp1 hp2 hp3 hne

theorem mergeFold_found :
    ∀ (ps : List (Str × Str × Str)) (T : TSectionList) (s k v : Str),
      PairsWF ps → PairsDistinct ps → (s, k, v) ∈ ps →
      lookupValue (mergeFold ps T) s k = some v := by
  intro ps
  induction ps with
  | nil => intro T s k v _ _ hmem; simp at hmem
  | cons p rest ih =>
    intro T s k v hwf hdis hmem
    rcases List.mem_cons.mp hmem with hmem | hmem
    · obtain ⟨hp1, hp2, hp3, hp4, hp5⟩ := hwf p (by simp)
      have hni : ∀ w, (s, k, w) ∉ rest := by
        intro w hw
        have hq := (List.pairwise_cons.mp hdis).1 (s, k, w) hw
        rw [← hmem] at hq
        exact hq ⟨rfl, rfl⟩
      have hs1 : s = p.1 := by rw [← hmem]
      have hk1 : k = p.2.1 := by rw [← hmem]
      have hv1 : v = p.2.2 := by rw [← hmem]
      show lookupValue (mergeFold rest (AddSectionKey T p.1 p.2.1 p.2.2).1) s k = _
      rw [mergeFold_preserve rest (AddSectionKey T p.1 p.2.1 p.2.2).1 s k
          (fun q hq => hwf q (by simp [hq])) hni]
      rw [hs1, hk1, hv1]
      rw [lookupValue_AddSectionKey_self p.2.2 hp1 hp2 hp3 hp4, hp5]
    · show lookupValue (mergeFold rest (AddSectionKey T p.1 p.2.1 p.2.2).1) s k = _
      exact ih (AddSectionKey T p.1 p.2.1 p.2.2).1 s k v
        (fun q hq => hwf q (by simp [hq]))
        (List.pairwise_cons.mp hdis).2 hmem

theorem walkPairs_wf {B : TSectionList} (h : MergeWF B) :
    PairsWF (walkPairs B) := by
  intro p hp
  unfold walkPairs at hp
  rw [List.mem_flatten] at hp
  obtain ⟨l, hl, hpl⟩ := hp
  rw [List.mem_map] at hl
  obtain ⟨e, he, hel⟩ := hl
  rw [← hel] at hpl
  rw [List.mem_map] at hpl
  obtain ⟨kv, hkv, hkvp⟩ := hpl
  obtain ⟨⟨hn1, hn2⟩, _, hkeys⟩ := h.2 e he
  obtain ⟨hk1, hk2, hv1⟩ := hkeys kv hkv
  rw [← hkvp]
  exact ⟨hn1, hn2, hk1, hk2, hv1⟩

theorem walkPairs_distinct {B : TSectionList} (h : MergeWF B) :
    PairsDistinct (walkPairs B) := by
  unfold PairsDistinct walkPairs
  rw [List.pairwise_flatten]
  constructor
  · intro l hl
    rw [List.mem_map] at hl
    obtain ⟨e, he, hel⟩ := hl
    rw [← hel]
    have hkeys : (e.2.map tKeyVal.Key).Nodup := (h.2 e he).2.1
    have h2 : e.2.Pairwise (fun a b => tKeyVal.Key a ≠ tKeyVal.Key b) :=
      List.pairwise_map.mp hkeys
    rw [List.pairwise_map]
    exact h2.imp (fun hab hc => hab hc.2)
  · have hfst : (B.sections.map Prod.fst).Nodup := h.1
    have h3 : B.sections.Pairwise (fun a b => Prod.fst a ≠ Prod.fst b) :=
      List.pairwise_map.mp hfst
    rw [List.pairwise_map]
    refine h3.imp ?_
    intro e1 e2 hne x hx y hy hc
    rw [List.mem_map] at hx hy
    obtain ⟨kv1, _, hx1⟩ := hx
    obtain ⟨kv2, _, hy1⟩ := hy
    rw [← hx1, ← hy1] at hc
    simp at hc
    exact hne (hc.1)

theorem lookupValue_some_pair {B : TSectionList} (h : MergeWF B)
    {s k v : Str} (hl : lookupValue B s k = some v) :
    (s, k, v) ∈ walkPairs B := by
  unfold lookupValue at hl
  cases hg : mapGet B.sections s with
  | none => rw [hg] at hl; exact absurd hl (by simp)
  | some kl =>
    rw [hg] at hl
    have hmem : (s, kl) ∈ B.sections := mem_of_mapGet_eq_some hg
    have hkv : (⟨k, v⟩ : tKeyVal) ∈ kl := kvlValue_some_mem hl
    unfold walkPairs
    rw [List.mem_flatten]
    refine ⟨kl.map (fun kv => (s, kv.Key, kv.Value)), ?_, ?_⟩
    · rw [List.mem_map]
      exact ⟨(s, kl), hmem, rfl⟩
    · rw [List.mem_map]
      exact ⟨⟨k, v⟩, hkv, rfl⟩

theorem lookupValue_none_pair {B : TSectionList} (h : MergeWF B)
    {s k : Str} (hl : lookupValue B s k = none) :
    ∀ v, (s, k, v) ∉ walkPairs B := by
  intro v hv
  unfold walkPairs at hv
  rw [List.mem_flatten] at hv
  obtain ⟨l, hml, hmem⟩ := hv
  rw [List.mem_map] at hml
  obtain ⟨e, he, hel⟩ := hml
  rw [← hel] at hmem
  rw [List.mem_map] at hmem
  obtain ⟨kv, hkv, hkvp⟩ := hmem
  have hs : e.1 = s := by
    have := congrArg Prod.fst hkvp
    simpa using this
  have hk : kv.Key = k := by
    have := congrArg (fun q => q.2.1) hkvp
    simpa using this
  have hgete : mapGet B.sections e.1 = some e.2 := mapGet_eq_of_mem h.1 he
  have hval : kvlValue e.2 kv.Key = some kv.Value :=
    kvlValue_of_mem (h.2 e he).2.1 hkv
  unfold lookupValue at hl
  rw [hs] at hgete
  simp only [hgete] at hl
  rw [hk] at hval
  rw [hl] at hval
  exact absurd hval (by simp)

/-- C5 counterexample: a section emptied through the public interface is
present in `B` but is not created in `A` by `A.Merge(B)`, because the
merge walks key/value pairs and an empty section contributes none. -/
theorem C5_counterexample_empty_section :
    (HasSection
      ((RemoveSectionKey (AddSectionKey NewSectionList "A".data "k".data
        "v".data).1 "A".data "k".data).1) "A".data = true) ∧
    (HasSection
      (Merge NewSectionList (some
        ((RemoveSectionKey (AddSectionKey NewSectionList "A".data "k".data
          "v".data).1 "A".data "k".data).1))) "A".data = false) := by
  refine ⟨by decide, by decide⟩

/-- C5 (amended): with a well-formed merge argument, merging `none` is
the identity; after `A.Merge(B)` every slot stored in `B` reads `B`'s
value, every slot absent from `B` reads exactly as in `A`, and every
non-empty section of `B` exists in the result.  (A section of `B` holding
no pairs contributes nothing, per the counterexample.) -/
theorem C5_merge_semantics (A B : TSectionList) (h : MergeWF B) :
    Merge A none = A ∧
    (∀ s k v, lookupValue B s k = some v →
      lookupValue (Merge A (some B)) s k = some v) ∧
    (∀ s k, lookupValue B s k = none →
      lookupValue (Merge A (some B)) s k = lookupValue A s k) ∧
    (∀ e ∈ B.sections, e.2 ≠ [] →
      HasSection (Merge A (some B)) e.1 = true) := by
  have hfold : Merge A (some B) = mergeFold (walkPairs B) A := rfl
  have hwf := walkPairs_wf h
  have hdis := walkPairs_distinct h
  refine ⟨rfl, ?_, ?_, ?_⟩
  · intro s k v hl
    rw [hfold]
    exact mergeFold_found (walkPairs B) A s k v hwf hdis (lookupValue_some_pair h hl)
  · intro s k hl
    rw [hfold]
    exact mergeFold_preserve (walkPairs B) A s k hwf (lookupValue_none_pair h hl)
  · intro e he hne
    cases hkl : e.2 with
    | nil => exact absurd hkl hne
    | cons kv rest =>
      have hkv : kv ∈ e.2 := by rw [hkl]; simp
      have hpair : (e.1, kv.Key, kv.Value) ∈ walkPairs B := by
        unfold walkPairs
        rw [List.mem_flatten]
        refine ⟨e.2.map (fun x => (e.1, x.Key, x.Value)), ?_, ?_⟩
        · rw [List.mem_map]
          exact ⟨e, he, rfl⟩
        · rw [List.mem_map]
          exact ⟨kv, hkv, rfl⟩
      have hfound := mergeFold_found (walkPairs B) A e.1 kv.Key kv.Value hwf hdis hpair
      rw [← hfold] at hfound
      obtain ⟨⟨hn1, hn2⟩, _, _⟩ := h.2 e he
      unfold HasSection
      have hnorm : normSect (Merge A (some B)) e.1 = e.1 := by
        unfold normSect
        rw [hn1, if_neg hn2]
      rw [hnorm]
      unfold lookupValue at hfound
      cases hg : mapGet (Merge A (some B)).sections e.1 with
      | none => rw [hg] at hfound; exact absurd hfound (by simp)
      | some kl => rfl

/-- C5 witness at concrete stores. -/
theorem C5_merge_semantics_witness :
    Merge NewSectionList none = NewSectionList ∧
    (∀ s k v, lookupValue
        (TSectionList.mk "Default".data [] ["B".data]
          [("B".data, [⟨"k".data, "w".data⟩])]) s k = some v →
      lookupValue (Merge NewSectionList (some
        (TSectionList.mk "Default".data [] ["B".data]
          [("B".data, [⟨"k".data, "w".data⟩])]))) s k = some v) ∧
    (∀ s k, lookupValue
        (TSectionList.mk "Default".data [] ["B".data]
          [("B".data, [⟨"k".data, "w".data⟩])]) s k = none →
      lookupValue (Merge NewSectionList (some
        (TSectionList.mk "Default".data [] ["B".data]
          [("B".data, [⟨"k".data, "w".data⟩])]))) s k =
        lookupValue NewSectionList s k) ∧
    (∀ e ∈ (TSectionList.mk "Default".data [] ["B".data]
        [("B".data, [⟨"k".data, "w".data⟩])]).sections, e.2 ≠ [] →
      HasSection (Merge NewSectionList (some
        (TSectionList.mk "Default".data [] ["B".data]
          [("B".data, [⟨"k".data, "w".data⟩])]))) e.1 = true) :=
  C5_merge_semantics NewSectionList
    (TSectionList.mk "Default".data [] ["B".data]
      [("B".data, [⟨"k".data, "w".data⟩])])
    (by
      refine ⟨by decide, ?_⟩
      intro e he
      have he2 : e = ("B".data, [(⟨"k".data, "w".data⟩ : tKeyVal)]) := by
        simpa using he
      rw [he2]
      refine ⟨⟨by decide, by decide⟩, by decide, ?_⟩
      intro kv hkv
      have hkv2 : kv = (⟨"k".data, "w".data⟩ : tKeyVal) := by simpa using hkv
      rw [hkv2]
      exact ⟨by decide, by decide, by decide⟩)

/-! Helper facts for the serialize/parse round trip. -/

theorem trimmed_head {l : Str} (h : goTrim l = l) :
    ∀ c, l.head? = some c → goSpace c = false := by
  intro c hc
  rw [← h] at hc
  exact goTrim_head hc

theorem trimmed_last {l : Str} (h : goTrim l = l) :
    ∀ c, l.getLast? = some c → goSpace c = false := by
  intro c hc
  rw [← h] at hc
  exact goTrim_last hc

theorem dropWhile_take_head {p : Char → Bool} :
    ∀ {l : Str} {m : Nat} {c : Char},
      ((l.take m).dropWhile p).head? = some c →
      (l.dropWhile p).head? = some c := by
  intro l
  induction l with
  | nil => intro m c h; simp at h
  | cons x xs ih =>
    intro m c h
    cases m with
    | zero => simp at h
    | succ m2 =>
      rw [List.take_succ_cons] at h
      by_cases hx : p x
      · rw [List.dropWhile_cons, if_pos hx] at h
        rw [List.dropWhile_cons, if_pos hx]
        exact ih h
      · rw [List.dropWhile_cons, if_neg hx] at h
        rw [List.dropWhile_cons, if_neg hx]
        simpa using h

theorem dropWhile_dropTrailing_head {p q : Char → Bool} {l : Str} {c : Char}
    (h : ((dropTrailing q l).dropWhile p).head? = some c) :
    (l.dropWhile p).head? = some c := by
  have hl := dropTrailing_append_eq q l
  rw [← hl, List.dropWhile_append]
  by_cases he : ((dropTrailing q l).dropWhile p).isEmpty
  · rw [List.isEmpty_iff] at he
    rw [he] at h
    simp at h
  · rw [if_neg he]
    cases hd : (dropTrailing q l).dropWhile p with
    | nil => rw [hd] at h; simp at h
    | cons b bs =>
      rw [hd] at h
      simpa using h

theorem mem_take_findIdx {q : Char → Bool} :
    ∀ {l : Str} {c : Char}, c ∈ l.take (l.findIdx q) → q c = false := by
  intro l
  induction l with
  | nil => intro c h; simp at h
  | cons x xs ih =>
    intro c h
    rw [List.findIdx_cons] at h
    by_cases hx : q x
    · rw [hx] at h
      simp at h
    · have hx2 : q x = false := by simpa using hx
      rw [hx2] at h
      simp only [cond_false, List.take_succ_cons, List.mem_cons] at h
      rcases h with h | h
      · rw [h]; exact hx2
      · exact ih h

theorem findIdx_eq_append {rest : Str} :
    ∀ {l : Str}, '=' ∉ l →
      (l ++ '=' :: rest).findIdx (fun c => c = '=') = l.length := by
  intro l
  induction l with
  | nil => intro _; simp [List.findIdx_cons]
  | cons x xs ih =>
    intro h
    have hx : ¬ x = '=' := by
      intro hc
      exact h (by simp [hc])
    rw [List.cons_append, List.findIdx_cons]
    have hx2 : (fun c => decide (c = '=')) x = false := by simpa using hx
    simp only [hx2, cond_false]
    rw [ih (fun hc => h (List.mem_cons_of_mem x hc))]
    simp

theorem take_len_append {a b : Str} : (a ++ b).take a.length = a := by
  rw [List.take_append_eq_append_take]
  simp

theorem drop_len_append {a b : Str} : (a ++ b).drop a.length = b := by
  rw [List.drop_append_eq_append_drop]
  simp

theorem reTrimR_append_space {l : Str}
    (h : ∀ c, l.getLast? = some c → goSpace c = false) :
    reTrimR (l ++ [' ']) = l := by
  unfold reTrimR dropTrailing
  rw [List.reverse_append]
  show ((' ' :: l.reverse).dropWhile reSpace).reverse = l
  rw [List.dropWhile_cons, if_pos (by decide)]
  rw [dropWhile_eq_self, List.reverse_reverse]
  intro c hc
  rw [List.head?_reverse] at hc
  exact not_reSpace (h c hc)

theorem mem_removeQuotes {s : Str} {c : Char} (h : c ∈ removeQuotes s) :
    c ∈ s := by
  simp only [removeQuotes] at h
  have htr : ∀ x, x ∈ goTrim s → x ∈ s := fun x hx => mem_of_mem_goTrim hx
  cases h0 : (goTrim s).head? with
  | none => rw [h0] at h; exact htr c h
  | some c0 =>
    rw [h0] at h
    cases hL : (goTrim s).getLast? with
    | none => rw [hL] at h; exact htr c h
    | some cL =>
      rw [hL] at h
      dsimp only at h
      by_cases hq : (c0 = '\'' ∨ c0 = '"') ∧ (cL = '\'' ∨ cL = '"') ∧
          2 ≤ (goTrim s).length
      · rw [if_pos hq] at h
        by_cases hn : '\n' ∈ reTrim (((goTrim s).drop 1).dropLast)
        · rw [if_pos hn] at h
          exact htr c h
        · rw [if_neg hn] at h
          by_cases he : c0 = cL
          · rw [if_pos he] at h
            apply htr
            have h1 : c ∈ ((goTrim s).drop 1).dropLast :=
              ((dropTrailing_sublist _ _).trans
                (List.dropWhile_sublist _)).subset h
            exact ((List.dropLast_sublist _).trans
              (List.drop_sublist _ _)).subset h1
          · rw [if_neg he] at h
            exact htr c h
      · rw [if_neg hq] at h
        exact htr c h

theorem kvlString_unlines (kl : tKeyValList) :
    kvlString kl = unlines (kvLines kl) := by
  induction kl with
  | nil => rfl
  | cons kv rest ih =>
    show kvlString (kv :: rest) = unlines (kvLine kv :: kvLines rest)
    have h1 : unlines (kvLine kv :: kvLines rest) =
        (kvLine kv ++ ['\n']) ++ unlines (kvLines rest) := by
      unfold unlines
      simp
    have h2 : kvlString (kv :: rest) = (kvLine kv ++ ['\n']) ++ kvlString rest := by
      show kv.Key ++
          (if kv.Value = [] then [' ', '=', '\n']
           else [' ', '=', ' '] ++ kv.Value ++ ['\n']) ++ kvlString rest = _
      unfold kvLine
      by_cases hv : kv.Value = []
      · rw [if_pos hv, if_pos hv]
        simp
      · rw [if_neg hv, if_neg hv]
        simp
    rw [h2, h1, ih]

theorem unlines_append (a b : List Str) :
    unlines (a ++ b) = unlines a ++ unlines b := by
  unfold unlines
  rw [List.map_append, List.flatten_append]

theorem scanAux_newline_free :
    ∀ (l rest acc : Str), '\n' ∉ l →
      scanAux (l ++ '\n' :: rest) acc = dropCR (acc ++ l) :: scanAux rest [] := by
  intro l
  induction l with
  | nil =>
    intro rest acc _
    show scanAux ('\n' :: rest) acc = dropCR (acc ++ []) :: scanAux rest []
    simp [scanAux]
  | cons c l2 ih =>
    intro rest acc h
    have hc : ¬ c = '\n' := by
      intro hc
      exact h (by simp [hc])
    show scanAux ((c :: l2) ++ '\n' :: rest) acc =
      dropCR (acc ++ (c :: l2)) :: scanAux rest []
    rw [List.cons_append]
    rw [show scanAux (c :: (l2 ++ '\n' :: rest)) acc =
        scanAux (l2 ++ '\n' :: rest) (acc ++ [c]) from by simp [scanAux, hc]]
    rw [ih rest (acc ++ [c]) (fun hm => h (List.mem_cons_of_mem c hm))]
    rw [List.append_assoc]
    rfl

theorem dropCR_eq_self {l : Str} (h : l.getLast? ≠ some '\r') :
    dropCR l = l := by
  unfold dropCR
  rw [if_neg h]

theorem scanLines_unlines :
    ∀ ls : List Str,
      (∀ l ∈ ls, '\n' ∉ l ∧ l.getLast? ≠ some '\r') →
      scanLines (unlines ls) = ls := by
  intro ls
  induction ls with
  | nil => intro _; rfl
  | cons l rest ih =>
    intro h
    have hl := h l (by simp)
    show scanAux (unlines (l :: rest)) [] = l :: rest
    have hu : unlines (l :: rest) = l ++ '\n' :: unlines rest := by
      unfold unlines
      simp
    rw [hu, scanAux_newline_free l (unlines rest) [] hl.1]
    rw [List.nil_append, dropCR_eq_self hl.2]
    show l :: scanLines (unlines rest) = l :: rest
    rw [ih (fun x hx => h x (by simp [hx]))]

/-! Classification of serialized lines. -/

theorem head?_append_left {a b : Str} (h : a ≠ []) :
    (a ++ b).head? = a.head? := by
  cases a with
  | nil => exact absurd rfl h
  | cons x xs => simp

theorem getLast?_append_right {a b : Str} (h : b ≠ []) :
    (a ++ b).getLast? = b.getLast? := by
  rw [← List.head?_reverse, List.reverse_append, head?_append_left,
    List.head?_reverse]
  intro hc
  exact h (by simpa using congrArg List.reverse hc)

theorem header_goTrim {n : Str} (hw : NameWF n) :
    goTrim ('[' :: (n ++ [']'])) = '[' :: (n ++ [']']) := by
  apply goTrim_eq_self
  · intro c hc
    have h5 : c = '[' := by simpa using hc.symm
    rw [h5]
    decide
  · intro c hc
    rw [show ('[' :: (n ++ [']'])) = ('[' :: n) ++ [']'] from by simp] at hc
    rw [List.getLast?_concat] at hc
    have : c = ']' := by simpa using hc.symm
    rw [this]
    decide

theorem matchSection_header {n : Str} (hw : NameWF n) :
    matchSection ('[' :: (n ++ [']'])) = some n := by
  obtain ⟨h1, h2, h3, h4⟩ := hw
  unfold matchSection
  rw [show ('[' :: (n ++ [']'])).getLast? = some ']' from by
    rw [show ('[' :: (n ++ [']'])) = ('[' :: n) ++ [']'] from by simp]
    exact List.getLast?_concat _]
  simp only [List.head?_cons]
  rw [if_pos (by simp)]
  rw [show (('[' :: (n ++ [']'])).drop 1).dropLast = n from by
    simp [List.dropLast_concat]]
  rw [if_neg h3]
  rw [reTrim_eq_self (trimmed_head h1) (trimmed_last h1)]

theorem kvLine_goTrim {k v : Str} (hk : KeyWF k) (hv : ValWF v) :
    goTrim (kvLine ⟨k, v⟩) = kvLine ⟨k, v⟩ := by
  obtain ⟨hk1, hk2, _, _, _⟩ := hk
  obtain ⟨hv1, _⟩ := hv
  apply goTrim_eq_self
  · intro c hc
    unfold kvLine at hc
    rw [head?_append_left hk2] at hc
    exact trimmed_head hk1 c hc
  · intro c hc
    unfold kvLine at hc
    by_cases hvv : v = []
    · rw [if_pos hvv] at hc
      rw [show k ++ [' ', '='] = (k ++ [' ']) ++ ['='] from by simp] at hc
      rw [List.getLast?_concat] at hc
      have : c = '=' := by simpa using hc.symm
      rw [this]
      decide
    · rw [if_neg hvv] at hc
      rw [show k ++ ([' ', '=', ' '] ++ v) = (k ++ [' ', '=', ' ']) ++ v from by
        simp] at hc
      rw [getLast?_append_right hvv] at hc
      exact trimmed_last hv1 c hc

theorem matchKeyVal_kvLine {k v : Str} (hk : KeyWF k) (hv : ValWF v) :
    matchKeyVal (kvLine ⟨k, v⟩) = some (k, v) := by
  obtain ⟨hk1, hk2, hk3, hk4, hk5⟩ := hk
  obtain ⟨hv1, hv2⟩ := hv
  have hknoeq : '=' ∉ k ++ [' '] := by
    intro hc
    rcases List.mem_append.mp hc with hc | hc
    · exact hk3 hc
    · simp at hc
  by_cases hvv : v = []
  · have hline : kvLine ⟨k, v⟩ = (k ++ [' ']) ++ '=' :: [] := by
      unfold kvLine
      rw [if_pos hvv]
      simp
    rw [hline]
    simp only [matchKeyVal]
    rw [findIdx_eq_append hknoeq]
    rw [if_neg (by simp)]
    rw [take_len_append]
    rw [reTrimR_append_space (trimmed_last hk1)]
    rw [if_neg hk2]
    rw [show List.drop ((k ++ [' ']).length + 1) ((k ++ [' ']) ++ '=' :: []) = []
      from List.drop_eq_nil_of_le (by simp)]
    rw [if_neg (by simp [reTrimL])]
    rw [hvv]
    rfl
  · have hline : kvLine ⟨k, v⟩ = (k ++ [' ']) ++ '=' :: (' ' :: v) := by
      unfold kvLine
      rw [if_neg hvv]
      simp
    rw [hline]
    simp only [matchKeyVal]
    rw [findIdx_eq_append hknoeq]
    rw [if_neg (by simp)]
    rw [take_len_append]
    rw [reTrimR_append_space (trimmed_last hk1)]
    rw [if_neg hk2]
    rw [show (k ++ [' ']).length + 1 = ((k ++ [' ']) ++ ['=']).length from by simp]
    rw [show (k ++ [' ']) ++ '=' :: (' ' :: v) = ((k ++ [' ']) ++ ['=']) ++ (' ' :: v)
      from by simp]
    rw [drop_len_append]
    rw [show reTrimL (' ' :: v) = reTrimL v from by
      simp only [reTrimL]
      exact List.dropWhile_cons_of_pos (by decide)]
    rw [reTrimL_eq_self (trimmed_head hv1)]
    rw [if_neg hv2]

/-! Single steps of the line-reading loop on well-behaved lines. -/

theorem get?_length_sub_one {l : Str} :
    l.get? (l.length - 1) = l.getLast? := by
  rw [List.getLast?_eq_getElem?, List.get?_eq_getElem?]

theorem processLine_blank {st : ReadState} {raw : Str} (hlast : st.lastLine = [])
    (h0 : goTrim raw = []) :
    processLine st raw =
      some { st with bytesRead := st.bytesRead + utf8Len raw + 1 } := by
  simp only [processLine]
  rw [if_pos ⟨by rw [h0]; rfl, hlast⟩]

theorem processLine_plain {st : ReadState} {raw : Str} (hlast : st.lastLine = [])
    (hne : goTrim raw ≠ [])
    (hcm : ∀ c, (goTrim raw).head? = some c → ¬(c = ';' ∨ c = '#'))
    (hbs : (goTrim raw).getLast? ≠ some '\\') :
    processLine st raw = some
      { sl := (classifyLine st.sl st.curSect (goTrim raw)).1,
        curSect := (classifyLine st.sl st.curSect (goTrim raw)).2,
        lastLine := [],
        bytesRead := st.bytesRead + utf8Len raw + 1 } := by
  have hlen : ¬ (goTrim raw).length = 0 := by
    simpa [List.length_eq_zero] using hne
  simp only [processLine]
  rw [if_neg (fun hc => hlen hc.1)]
  simp only [if_neg hlen]
  cases hh : (goTrim raw).head? with
  | none => exact absurd (List.head?_eq_none_iff.mp hh) hne
  | some c0 =>
    simp only [hh]
    have hcc := hcm c0 hh
    rw [if_neg (fun hx => hcc hx.1)]
    simp only [if_neg hcc]
    rw [get?_length_sub_one]
    cases hgl : (goTrim raw).getLast? with
    | none => exact absurd (List.getLast?_eq_none_iff.mp hgl) hne
    | some cB =>
      simp only [hgl]
      rw [if_neg (fun he => hbs (by rw [hgl, he]))]
      rw [hlast]
      rw [if_pos rfl]

/-! Composition of the loop over the serialized lines of whole sections. -/

theorem readState_eta {st : ReadState} (hlast : st.lastLine = []) :
    st = ⟨st.sl, st.curSect, [], st.bytesRead⟩ := by
  cases st with
  | mk a b c d => cases hlast; rfl

theorem kvLine_ne_nil {kv : tKeyVal} (h : kv.Key ≠ []) : kvLine kv ≠ [] := by
  unfold kvLine
  intro hc
  exact h (List.append_eq_nil.mp hc).1

theorem kvLine_head {kv : tKeyVal} (h : kv.Key ≠ []) :
    (kvLine kv).head? = kv.Key.head? := by
  unfold kvLine
  exact head?_append_left h

theorem kvLine_getLast {kv : tKeyVal} (h : kv.Value.getLast? ≠ some '\\') :
    (kvLine kv).getLast? ≠ some '\\' := by
  unfold kvLine
  by_cases hv : kv.Value = []
  · rw [if_pos hv]
    rw [show kv.Key ++ [' ', '='] = (kv.Key ++ [' ']) ++ ['='] from by simp]
    rw [List.getLast?_concat]
    decide
  · rw [if_neg hv]
    rw [show kv.Key ++ ([' ', '=', ' '] ++ kv.Value) =
        (kv.Key ++ [' ', '=', ' ']) ++ kv.Value from by simp]
    rw [getLast?_append_right hv]
    exact h

theorem classifyLine_kvLine {sl : TSectionList} {cur : Str} {kv : tKeyVal}
    (hK : KeyWF kv.Key) (hV : ValWF kv.Value)
    (hrq : removeQuotes kv.Value = kv.Value)
    (hms : matchSection (kvLine kv) = none) :
    classifyLine sl cur (kvLine kv) =
      ((AddSectionKey sl cur kv.Key kv.Value).1, cur) := by
  unfold classifyLine
  simp only [hms, matchKeyVal_kvLine hK hV]
  rw [hK.1, hrq]

theorem classifyLine_header {sl : TSectionList} {cur : Str} {n : Str}
    (hn : NameWF n) :
    classifyLine sl cur ('[' :: (n ++ [']'])) = (sl, n) := by
  unfold classifyLine
  simp only [matchSection_header hn]
  rw [hn.1]

theorem readLoop_kvs :
    ∀ (kl : tKeyValList) (st : ReadState), st.lastLine = [] →
    (∀ kv ∈ kl, KeyWF kv.Key ∧ ValWF kv.Value ∧
      kv.Value.getLast? ≠ some '\\' ∧ removeQuotes kv.Value = kv.Value ∧
      matchSection (kvLine kv) = none) →
    ∀ rest, ∃ b, readLoop st (kvLines kl ++ rest) =
      readLoop ⟨addKl st.sl st.curSect kl, st.curSect, [], b⟩ rest := by
  intro kl
  induction kl with
  | nil =>
    intro st hlast _ rest
    refine ⟨st.bytesRead, ?_⟩
    show readLoop st rest = readLoop ⟨st.sl, st.curSect, [], st.bytesRead⟩ rest
    rw [← readState_eta hlast]
  | cons kv klr ih =>
    intro st hlast hkv rest
    obtain ⟨hK, hV, hbs, hrq, hms⟩ := hkv kv (by simp)
    have hgt : goTrim (kvLine kv) = kvLine kv := kvLine_goTrim hK hV
    obtain ⟨b1, hstep⟩ : ∃ b1, processLine st (kvLine kv) = some
        ⟨(AddSectionKey st.sl st.curSect kv.Key kv.Value).1,
          st.curSect, [], b1⟩ := by
      refine ⟨st.bytesRead + utf8Len (kvLine kv) + 1, ?_⟩
      rw [processLine_plain hlast
        (by rw [hgt]; exact kvLine_ne_nil hK.2.1)
        (by
          intro c hc
          rw [hgt, kvLine_head hK.2.1] at hc
          have h5 := hK.2.2.2.2 c hc
          rintro (h6 | h6)
          · exact h5.1 h6
          · exact h5.2 h6)
        (by rw [hgt]; exact kvLine_getLast hbs)]
      rw [hgt, classifyLine_kvLine hK hV hrq hms]
    obtain ⟨b2, h2⟩ := ih ⟨(AddSectionKey st.sl st.curSect kv.Key kv.Value).1,
        st.curSect, [], b1⟩ rfl
      (fun kv2 hm => hkv kv2 (List.mem_cons_of_mem kv hm)) rest
    refine ⟨b2, ?_⟩
    show readLoop st (kvLine kv :: (kvLines klr ++ rest)) = _
    rw [show readLoop st (kvLine kv :: (kvLines klr ++ rest)) =
        readLoop ⟨(AddSectionKey st.sl st.curSect kv.Key kv.Value).1,
          st.curSect, [], b1⟩ (kvLines klr ++ rest) from by
      simp only [readLoop, hstep]]
    exact h2

theorem readLoop_unit {n : Str} {kl : tKeyValList} (h : UnitSafe n kl)
    {st : ReadState} (hlast : st.lastLine = []) (rest : List Str) :
    ∃ b, readLoop st (unitLines n kl ++ rest) =
      readLoop ⟨addKl st.sl n kl, n, [], b⟩ rest := by
  obtain ⟨hn, hkne, hkv⟩ := h
  have hb : processLine st [] =
      some { st with bytesRead := st.bytesRead + utf8Len [] + 1 } :=
    processLine_blank hlast rfl
  have hgt : goTrim ('[' :: (n ++ [']'])) = '[' :: (n ++ [']']) :=
    header_goTrim hn
  obtain ⟨b2, hstep⟩ : ∃ b2,
      processLine { st with bytesRead := st.bytesRead + utf8Len [] + 1 }
        ('[' :: (n ++ [']'])) = some ⟨st.sl, n, [], b2⟩ := by
    refine ⟨st.bytesRead + utf8Len [] + 1 + utf8Len ('[' :: (n ++ [']'])) + 1, ?_⟩
    rw [processLine_plain
      (show ({ st with bytesRead := st.bytesRead + utf8Len [] + 1 } :
        ReadState).lastLine = [] from hlast)
      (by rw [hgt]; simp)
      (by
        intro c hc
        rw [hgt] at hc
        have h5 : c = '[' := by simpa using hc.symm
        rw [h5]
        decide)
      (by
        rw [hgt]
        rw [show ('[' :: (n ++ [']'])) = ('[' :: n) ++ [']'] from by simp]
        rw [List.getLast?_concat]
        decide)]
    rw [hgt, classifyLine_header hn]
  obtain ⟨b3, h3⟩ := readLoop_kvs kl ⟨st.sl, n, [], b2⟩ rfl hkv rest
  refine ⟨b3, ?_⟩
  show readLoop st ([] :: ('[' :: (n ++ [']'])) :: (kvLines kl ++ rest)) = _
  rw [show readLoop st ([] :: ('[' :: (n ++ [']'])) :: (kvLines kl ++ rest)) =
      readLoop { st with bytesRead := st.bytesRead + utf8Len [] + 1 }
        (('[' :: (n ++ [']'])) :: (kvLines kl ++ rest)) from by
    simp only [readLoop, hb]]
  rw [show readLoop { st with bytesRead := st.bytesRead + utf8Len [] + 1 }
      (('[' :: (n ++ [']'])) :: (kvLines kl ++ rest)) =
      readLoop ⟨st.sl, n, [], b2⟩ (kvLines kl ++ rest) from by
    simp only [readLoop, hstep]]
  exact h3

theorem readLoop_units :
    ∀ (L : List (Str × tKeyValList)) (st : ReadState), st.lastLine = [] →
    (∀ e ∈ L, UnitSafe e.1 e.2) →
    ∀ rest, ∃ b c, readLoop st (unitsLines L ++ rest) =
      readLoop ⟨addUnits st.sl L, c, [], b⟩ rest := by
  intro L
  induction L with
  | nil =>
    intro st hlast _ rest
    refine ⟨st.bytesRead, st.curSect, ?_⟩
    show readLoop st rest = readLoop ⟨st.sl, st.curSect, [], st.bytesRead⟩ rest
    rw [← readState_eta hlast]
  | cons e L2 ih =>
    intro st hlast hu rest
    obtain ⟨b1, h1⟩ := readLoop_unit (hu e (by simp)) hlast
      (unitsLines L2 ++ rest)
    obtain ⟨b2, c2, h2⟩ := ih ⟨addKl st.sl e.1 e.2, e.1, [], b1⟩ rfl
      (fun x hx => hu x (List.mem_cons_of_mem e hx)) rest
    refine ⟨b2, c2, ?_⟩
    rw [show unitsLines (e :: L2) = unitLines e.1 e.2 ++ unitsLines L2 from by
      simp [unitsLines]]
    rw [List.append_assoc, h1]
    exact h2

theorem parseDoc_units {L : List (Str × tKeyValList)}
    (hu : ∀ e ∈ L, UnitSafe e.1 e.2) :
    parseDoc (unitsLines L) = some (addUnits NewSectionList L) := by
  obtain ⟨b, c, h⟩ := readLoop_units L
    { sl := NewSectionList, curSect := NewSectionList.defSect,
      lastLine := [], bytesRead := 0 } rfl hu []
  rw [List.append_nil] at h
  unfold parseDoc readLines
  rw [h]
  rfl

/-! Rebuilding a store by re-parsing its serialized sections. -/

theorem normSect_of_NameWF {sl : TSectionList} {n : Str} (hn : NameWF n) :
    normSect sl n = n := by
  unfold normSect
  rw [hn.1, if_neg hn.2.1]

theorem insR_append_gt :
    ∀ {acc : tKeyValList} {kv : tKeyVal},
      (∀ e ∈ acc, ltStr e.Key kv.Key = true) → insR acc kv = acc ++ [kv] := by
  intro acc
  induction acc with
  | nil => intro kv _; rfl
  | cons e rest ih =>
    intro kv h
    have he := h e (by simp)
    unfold insR
    rw [if_neg (show ¬ ltStr kv.Key e.Key = true by
      rw [ltStr_asymm he]; exact Bool.false_ne_true)]
    rw [if_neg (show ¬ kv.Key = e.Key by
      intro hc
      rw [hc, ltStr_irrefl] at he
      exact Bool.false_ne_true he)]
    rw [ih (fun x hx => h x (List.mem_cons_of_mem e hx))]
    rfl

theorem addKl_present_tail :
    ∀ (kl acc : tKeyValList) (sl : TSectionList) (n : Str),
      NameWF n → mapGet sl.sections n = none →
      (∀ kv ∈ kl, goTrim kv.Key = kv.Key ∧ kv.Key ≠ [] ∧
        goTrim kv.Value = kv.Value) →
      StrictKl (acc ++ kl) →
      addKl { sl with secOrder := sl.secOrder ++ [n],
                      sections := sl.sections ++ [(n, acc)] } n kl =
        { sl with secOrder := sl.secOrder ++ [n],
                  sections := sl.sections ++ [(n, acc ++ kl)] } := by
  intro kl
  induction kl with
  | nil =>
    intro acc sl n _ _ _ _
    show { sl with secOrder := sl.secOrder ++ [n],
                   sections := sl.sections ++ [(n, acc)] } = _
    rw [List.append_nil]
  | cons kv klr ih =>
    intro acc sl n hn habs hwf hs
    obtain ⟨hk1, hk2, hv1⟩ := hwf kv (by simp)
    have hget : mapGet (sl.sections ++ [(n, acc)]) n = some acc :=
      mapGet_append_of_none acc habs
    have hlt : ∀ e ∈ acc, ltStr e.Key kv.Key = true := by
      intro e hme
      exact (List.pairwise_append.mp hs).2.2 e hme kv (by simp)
    have hstep : (AddSectionKey
        { sl with secOrder := sl.secOrder ++ [n],
                  sections := sl.sections ++ [(n, acc)] } n kv.Key kv.Value).1 =
        { sl with secOrder := sl.secOrder ++ [n],
                  sections := sl.sections ++ [(n, acc ++ [kv])] } := by
      rw [AddSectionKey_present kv.Value (by rw [hk1]; exact hk2)
        (by rw [normSect_of_NameWF hn]; exact hget)]
      dsimp only
      rw [normSect_of_NameWF hn, hk1, hv1]
      rw [insR_append_gt hlt]
      rw [mapSet_append_of_none acc (acc ++ [kv]) habs]
    show addKl (AddSectionKey
        { sl with secOrder := sl.secOrder ++ [n],
                  sections := sl.sections ++ [(n, acc)] } n kv.Key kv.Value).1
      n klr = _
    rw [hstep]
    have hs2 : StrictKl ((acc ++ [kv]) ++ klr) := by
      rw [show (acc ++ [kv]) ++ klr = acc ++ kv :: klr from by simp]
      exact hs
    rw [ih (acc ++ [kv]) sl n hn habs
      (fun x hx => hwf x (List.mem_cons_of_mem kv hx)) hs2]
    rw [show (acc ++ [kv]) ++ klr = acc ++ kv :: klr from by simp]

theorem addKl_fresh {sl : TSectionList} {n : Str} {kl : tKeyValList}
    (hn : NameWF n) (habs : mapGet sl.sections n = none)
    (hwf : ∀ kv ∈ kl, goTrim kv.Key = kv.Key ∧ kv.Key ≠ [] ∧
      goTrim kv.Value = kv.Value)
    (hs : StrictKl kl) (hne : kl ≠ []) :
    addKl sl n kl = { sl with secOrder := sl.secOrder ++ [n],
                              sections := sl.sections ++ [(n, kl)] } := by
  cases kl with
  | nil => exact absurd rfl hne
  | cons kv klr =>
    obtain ⟨hk1, hk2, hv1⟩ := hwf kv (by simp)
    have hstep : (AddSectionKey sl n kv.Key kv.Value).1 =
        { sl with secOrder := sl.secOrder ++ [n],
                  sections := sl.sections ++ [(n, [kv])] } := by
      rw [AddSectionKey_absent kv.Value (by rw [hk1]; exact hk2)
        (by rw [normSect_of_NameWF hn]; exact habs)]
      dsimp only
      rw [normSect_of_NameWF hn, hk1, hv1]
    show addKl (AddSectionKey sl n kv.Key kv.Value).1 n klr = _
    rw [hstep]
    have hs2 : StrictKl ([kv] ++ klr) := hs
    rw [addKl_present_tail klr [kv] sl n hn habs
      (fun x hx => hwf x (List.mem_cons_of_mem kv hx)) hs2]
    rfl

theorem addUnits_fresh :
    ∀ (L : List (Str × tKeyValList)) (sl : TSectionList),
      (∀ e ∈ L, NameWF e.1 ∧ StrictKl e.2 ∧ e.2 ≠ [] ∧
        ∀ kv ∈ e.2, goTrim kv.Key = kv.Key ∧ kv.Key ≠ [] ∧
          goTrim kv.Value = kv.Value) →
      (∀ e ∈ L, mapGet sl.sections e.1 = none) →
      (L.map Prod.fst).Nodup →
      addUnits sl L = { sl with secOrder := sl.secOrder ++ L.map Prod.fst,
                                sections := sl.sections ++ L } := by
  intro L
  induction L with
  | nil =>
    intro sl _ _ _
    show sl = { sl with secOrder := sl.secOrder ++ [],
                        sections := sl.sections ++ [] }
    rw [List.append_nil, List.append_nil]
  | cons e L2 ih =>
    intro sl hwf habs hnd
    obtain ⟨hn, hs, hne, hkv⟩ := hwf e (by simp)
    rw [List.map_cons, List.nodup_cons] at hnd
    show addUnits (addKl sl e.1 e.2) L2 = _
    rw [addKl_fresh hn (habs e (by simp)) hkv hs hne]
    have habs2 : ∀ x ∈ L2,
        mapGet (sl.sections ++ [(e.1, e.2)]) x.1 = none := by
      intro x hx
      rw [mapGet_append, habs x (List.mem_cons_of_mem e hx)]
      show mapGet [(e.1, e.2)] x.1 = none
      unfold mapGet
      rw [if_neg (show ¬ e.1 = x.1 from fun hc =>
        hnd.1 (hc ▸ List.mem_map_of_mem Prod.fst hx))]
      rfl
    rw [ih { sl with secOrder := sl.secOrder ++ [e.1],
                     sections := sl.sections ++ [(e.1, e.2)] }
      (fun x hx => hwf x (List.mem_cons_of_mem e hx)) habs2 hnd.2]
    show ({ sl with
        secOrder := (sl.secOrder ++ [e.1]) ++ List.map Prod.fst L2,
        sections := (sl.sections ++ [(e.1, e.2)]) ++ L2 } : TSectionList) = _
    rw [List.append_assoc, List.append_assoc]
    rfl

/-! Serialization of a store as lines. -/

theorem unlines_unitLines (n : Str) (kl : tKeyValList) :
    unlines (unitLines n kl) =
      ['\n', '['] ++ n ++ [']', '\n'] ++ kvlString kl := by
  unfold unitLines
  rw [show unlines ([] :: ('[' :: (n ++ [']'])) :: kvLines kl) =
      ([] ++ ['\n']) ++ ((('[' :: (n ++ [']'])) ++ ['\n']) ++
        unlines (kvLines kl)) from by
    unfold unlines
    simp]
  rw [← kvlString_unlines]
  simp

theorem storeString_units :
    ∀ (ns : List Str) (sl : TSectionList) (acc : Str),
      (∀ n ∈ ns, (mapGet sl.sections n).isSome = true) →
      ns.foldl (fun acc name =>
        match mapGet sl.sections name with
        | some kl =>
            acc ++ ['\n', '['] ++ name ++ [']', '\n'] ++ kvlString (secSort kl)
        | none => acc) acc =
      acc ++ unlines (unitsLines (ns.map (fun n =>
        (n, match mapGet sl.sections n with
            | some kl => secSort kl
            | none => [])))) := by
  intro ns
  induction ns with
  | nil =>
    intro sl acc _
    show acc = acc ++ unlines []
    rw [show unlines [] = [] from rfl, List.append_nil]
  | cons n ns2 ih =>
    intro sl acc h
    obtain ⟨kl, hkl⟩ := Option.isSome_iff_exists.mp (h n (by simp))
    rw [List.foldl_cons]
    rw [show (match mapGet sl.sections n with
        | some kl =>
            acc ++ ['\n', '['] ++ n ++ [']', '\n'] ++ kvlString (secSort kl)
        | none => acc) =
        acc ++ ['\n', '['] ++ n ++ [']', '\n'] ++ kvlString (secSort kl) from by
      rw [hkl]]
    rw [ih sl _ (fun x hx => h x (List.mem_cons_of_mem n hx))]
    rw [show unitsLines ((n :: ns2).map (fun n2 =>
        (n2, match mapGet sl.sections n2 with
             | some kl2 => secSort kl2
             | none => []))) =
        unitLines n (secSort kl) ++ unitsLines (ns2.map (fun n2 =>
          (n2, match mapGet sl.sections n2 with
               | some kl2 => secSort kl2
               | none => []))) from by
      simp only [List.map_cons, unitsLines, List.flatten_cons]
      rw [hkl]]
    rw [unlines_append, unlines_unitLines]
    simp [List.append_assoc]

theorem storeString_eq_unlines {sl : TSectionList}
    (h : ∀ n ∈ sl.secOrder, (mapGet sl.sections n).isSome = true) :
    storeString sl = unlines (unitsLines (storeUnits sl)) := by
  unfold storeString storeUnits
  rw [storeString_units sl.secOrder sl [] h]
  rfl

theorem secSort_of_strict {kl : tKeyValList} (h : StrictKl kl) :
    secSort kl = kl := by
  induction kl with
  | nil => rfl
  | cons kv rest ih =>
    have hrest : StrictKl rest := (List.pairwise_cons.mp h).2
    show insSorted kv (secSort rest) = kv :: rest
    rw [ih hrest]
    cases rest with
    | nil => rfl
    | cons e rest2 =>
      unfold insSorted
      rw [if_pos (leStr_of_lt ((List.pairwise_cons.mp h).1 e (by simp)))]

theorem unitLines_scan_ok {n : Str} {kl : tKeyValList} (hn : NameWF n)
    (hkl : ∀ kv ∈ kl, KeyWF kv.Key ∧ ValWF kv.Value) :
    ∀ l ∈ unitLines n kl, '\n' ∉ l ∧ l.getLast? ≠ some '\r' := by
  intro l hl
  unfold unitLines at hl
  rcases List.mem_cons.mp hl with hl0 | hl
  · rw [hl0]
    exact ⟨by simp, by simp⟩
  rcases List.mem_cons.mp hl with hl0 | hl
  · rw [hl0]
    constructor
    · intro hc
      rcases List.mem_cons.mp hc with hc | hc
      · exact absurd hc (by decide)
      rcases List.mem_append.mp hc with hc | hc
      · exact hn.2.2.2 hc
      · exact absurd hc (by decide)
    · rw [show ('[' :: (n ++ [']'])) = ('[' :: n) ++ [']'] from by simp,
        List.getLast?_concat]
      decide
  · obtain ⟨kv, hkv, hl0⟩ := List.mem_map.mp hl
    obtain ⟨hK, hV⟩ := hkl kv hkv
    rw [← hl0]
    constructor
    · intro hc
      unfold kvLine at hc
      rcases List.mem_append.mp hc with hc | hc
      · exact hK.2.2.2.1 hc
      · by_cases hv : kv.Value = []
        · rw [if_pos hv] at hc
          exact absurd hc (by decide)
        · rw [if_neg hv] at hc
          rcases List.mem_append.mp hc with hc | hc
          · exact absurd hc (by decide)
          · exact hV.2 hc
    · unfold kvLine
      by_cases hv : kv.Value = []
      · rw [if_pos hv,
          show kv.Key ++ [' ', '='] = (kv.Key ++ [' ']) ++ ['='] from by simp,
          List.getLast?_concat]
        decide
      · rw [if_neg hv,
          show kv.Key ++ ([' ', '=', ' '] ++ kv.Value) =
            (kv.Key ++ [' ', '=', ' ']) ++ kv.Value from by simp,
          getLast?_append_right hv]
        intro hc
        exact absurd (trimmed_last hV.1 '\r' hc) (by decide)

theorem mapGet_some_mem :
    ∀ {m : List (Str × tKeyValList)} {n : Str} {kl : tKeyValList},
      mapGet m n = some kl → (n, kl) ∈ m := by
  intro m
  induction m with
  | nil => intro n kl h; exact absurd h (by simp [mapGet])
  | cons e rest ih =>
    intro n kl h
    unfold mapGet at h
    by_cases he : e.1 = n
    · rw [if_pos he] at h
      have h2 : e.2 = kl := by simpa using h
      rw [show (n, kl) = e from by rw [← he, ← h2]]
      simp
    · rw [if_neg he] at h
      exact List.mem_cons_of_mem e (ih h)

/-! Well-formedness invariants of the parser state. -/

theorem mem_of_mem_reTrim {l : Str} {c : Char} (h : c ∈ reTrim l) : c ∈ l := by
  unfold reTrim reTrimR reTrimL at h
  exact List.dropWhile_subset _ ((dropTrailing_sublist _ _).subset h)

theorem dropWhile_append_head {p : Char → Bool} {a b : Str} {c : Char}
    (h : ((a ++ b).dropWhile p).head? = some c) :
    (a.dropWhile p).head? = some c ∨ (b.dropWhile p).head? = some c := by
  rw [List.dropWhile_append] at h
  by_cases he : (a.dropWhile p).isEmpty
  · rw [if_pos he] at h
    exact Or.inr h
  · rw [if_neg he] at h
    left
    cases hd : a.dropWhile p with
    | nil => rw [hd] at he; simp at he
    | cons x xs =>
      rw [hd] at h
      simpa using h

theorem LastWF_nil : LastWF [] := by
  constructor
  · decide
  · intro c hc
    exact Option.noConfusion hc

theorem LastWF_single_space : LastWF [' '] := by
  constructor
  · decide
  · intro c hc
    rw [show ([' '] : Str).dropWhile goSpace = [] from by decide] at hc
    exact Option.noConfusion hc

theorem LastWF_append {a b : Str} (ha : LastWF a) (hb : LastWF b) :
    LastWF (a ++ b) := by
  constructor
  · intro hm
    rcases List.mem_append.mp hm with hm | hm
    · exact ha.1 hm
    · exact hb.1 hm
  · intro c hc
    rcases dropWhile_append_head hc with hc | hc
    · exact ha.2 c hc
    · exact hb.2 c hc

theorem LastWF_take {l : Str} (m : Nat) (h : LastWF l) : LastWF (l.take m) := by
  constructor
  · intro hm
    exact h.1 (List.take_subset m l hm)
  · intro c hc
    exact h.2 c (dropWhile_take_head hc)

theorem LastWF_goTrim {raw : Str} {c0 : Char} (hraw : '\n' ∉ raw)
    (hh : (goTrim raw).head? = some c0) (hcc : ¬(c0 = ';' ∨ c0 = '#')) :
    LastWF (goTrim raw) := by
  constructor
  · intro hm
    exact hraw (mem_of_mem_goTrim hm)
  · intro c hc
    rw [dropWhile_eq_self (fun x hx => goTrim_head hx)] at hc
    rw [hh] at hc
    cases Option.some.inj hc
    exact ⟨fun h1 => hcc (Or.inl h1), fun h1 => hcc (Or.inr h1)⟩

theorem goTrim_head?_dropWhile {l : Str} {c : Char}
    (h : (goTrim l).head? = some c) :
    (l.dropWhile goSpace).head? = some c := by
  unfold goTrim at h
  exact head?_dropTrailing h

theorem keyCapture_sub {kraw : Str} {c : Char}
    (hc : c ∈ (if reTrimR kraw = [] then kraw.take 1 else reTrimR kraw)) :
    c ∈ kraw := by
  split at hc
  · exact List.take_subset _ _ hc
  · exact (dropTrailing_sublist _ _).subset hc

theorem keyCapture_head {kraw : Str} {c : Char}
    (hc : ((if reTrimR kraw = [] then kraw.take 1 else
      reTrimR kraw).dropWhile goSpace).head? = some c) :
    (kraw.dropWhile goSpace).head? = some c := by
  split at hc
  · exact dropWhile_take_head hc
  · exact dropWhile_dropTrailing_head hc

theorem matchSection_inv {line cap : Str} (h : matchSection line = some cap) :
    ']' ∉ cap ∧ ∀ c ∈ cap, c ∈ line := by
  unfold matchSection at h
  split at h
  · split at h
    · dsimp only at h
      split at h
      · exact Option.noConfusion h
      · rename_i hmid
        cases Option.some.inj h
        constructor
        · intro hc
          exact hmid (mem_of_mem_reTrim hc)
        · intro c hc
          exact List.drop_subset _ _
            (List.dropLast_subset _ (mem_of_mem_reTrim hc))
    · exact Option.noConfusion h
  · exact Option.noConfusion h

theorem matchKeyVal_inv {line k v : Str} (h : matchKeyVal line = some (k, v)) :
    '=' ∉ k ∧ (∀ c ∈ k, c ∈ line) ∧ '\n' ∉ v ∧ (∀ c ∈ v, c ∈ line) ∧
    (∀ c, (k.dropWhile goSpace).head? = some c →
      (line.dropWhile goSpace).head? = some c) := by
  simp only [matchKeyVal] at h
  split at h
  · exact Option.noConfusion h
  · split at h
    · exact Option.noConfusion h
    · rename_i hnl
      have hpair := Option.some.inj h
      rw [Prod.mk.injEq] at hpair
      obtain ⟨hk, hv⟩ := hpair
      subst hk
      subst hv
      refine ⟨?_, ?_, hnl, ?_, ?_⟩
      · intro hc
        have h2 := mem_take_findIdx (keyCapture_sub hc)
        simp at h2
      · intro c hc
        exact List.take_subset _ _ (keyCapture_sub hc)
      · intro c hc
        exact List.drop_subset _ _ (List.dropWhile_subset _ hc)
      · intro c hc
        exact dropWhile_take_head (keyCapture_head hc)

theorem normSect_NameWF {sl : TSectionList} {cur : Str}
    (hd : sl.defSect = "Default".data) (hc : CurWF cur) :
    NameWF (normSect sl cur) := by
  unfold normSect
  by_cases h0 : goTrim cur = []
  · rw [if_pos h0, hd]
    exact ⟨by decide, by decide, by decide, by decide⟩
  · rw [if_neg h0]
    exact ⟨goTrim_idem cur, h0,
      fun hm => hc.1 (mem_of_mem_goTrim hm),
      fun hm => hc.2 (mem_of_mem_goTrim hm)⟩

theorem AddSectionKey_wf {sl : TSectionList} {s k v : Str}
    (h : StoreWF sl) (hs : NameWF (normSect sl s))
    (hk : goTrim k ≠ [] → KeyWF (goTrim k)) (hv : '\n' ∉ v) :
    StoreWF (AddSectionKey sl s k v).1 := by
  by_cases hk0 : goTrim k = []
  · rw [show (AddSectionKey sl s k v).1 = sl from by
      simp only [AddSectionKey]
      rw [if_pos hk0]]
    exact h
  · have hkw := hk hk0
    have hvw : ValWF (goTrim v) :=
      ⟨goTrim_idem v, fun hm => hv (mem_of_mem_goTrim hm)⟩
    obtain ⟨h1, h2, h3, h4⟩ := h
    cases hg : mapGet sl.sections (normSect sl s) with
    | some kl =>
      rw [AddSectionKey_present v hk0 hg]
      obtain ⟨hn4, hstrict, hne4, hkv4⟩ := h4 _ (mapGet_some_mem hg)
      simp only [StoreWF]
      refine ⟨h1, ?_, ?_, ?_⟩
      · intro n
        by_cases hn : n = normSect sl s
        · subst hn
          rw [mapGet_mapSet_self]
          simp only [Option.isSome_some]
          constructor
          · intro _
            trivial
          · intro _
            exact (h2 _).mpr (by rw [hg]; rfl)
        · rw [mapGet_mapSet_ne _ hn]
          exact h2 n
      · rw [map_fst_mapSet,
          if_pos (mapGet_isSome_iff.mp (by rw [hg]; rfl))]
        exact h3
      · intro e he
        rcases mem_mapSet he with he | he
        · rw [he]
          refine ⟨hs, insR_strict hstrict, insR_ne_nil kl _, ?_⟩
          intro kv hm
          rcases mem_insR hm with hx | hx
          · rw [hx]
            exact ⟨hkw, hvw⟩
          · exact hkv4 kv hx
        · exact h4 e he
    | none =>
      rw [AddSectionKey_absent v hk0 hg]
      have hnotin : normSect sl s ∉ sl.secOrder := fun hmem => by
        have h5 := (h2 _).mp hmem
        rw [hg] at h5
        exact Bool.noConfusion h5
      have hnotin2 : normSect sl s ∉ sl.sections.map Prod.fst := fun hmem => by
        have h5 := mapGet_isSome_iff.mpr hmem
        rw [hg] at h5
        exact Bool.noConfusion h5
      simp only [StoreWF]
      refine ⟨?_, ?_, ?_, ?_⟩
      · rw [List.nodup_append]
        refine ⟨h1, List.nodup_singleton _, ?_⟩
        intro x hx hx2
        rw [show x = normSect sl s from by simpa using hx2] at hx
        exact hnotin hx
      · intro n
        rw [mapGet_append]
        by_cases hn : n = normSect sl s
        · subst hn
          rw [hg]
          simp [mapGet]
        · cases hgn : mapGet sl.sections n with
          | some kl2 =>
            dsimp only
            simp only [Option.isSome_some]
            constructor
            · intro _
              trivial
            · intro _
              exact List.mem_append_left _ ((h2 n).mpr (by rw [hgn]; rfl))
          | none =>
            dsimp only
            rw [show mapGet [(normSect sl s, [⟨goTrim k, goTrim v⟩])] n = none
              from by
                unfold mapGet
                rw [if_neg (fun hc => hn hc.symm)]
                rfl]
            constructor
            · intro hmem
              rcases List.mem_append.mp hmem with hm | hm
              · have h5 := (h2 n).mp hm
                rw [hgn] at h5
                exact absurd h5 (by simp)
              · exact absurd (by simpa using hm) hn
            · intro h5
              exact absurd h5 (by simp)
      · rw [List.map_append]
        rw [List.nodup_append]
        refine ⟨h3, by simp, ?_⟩
        intro x hx hx2
        rw [show x = normSect sl s from by simpa using hx2] at hx
        exact hnotin2 hx
      · intro e he
        rcases List.mem_append.mp he with he | he
        · exact h4 e he
        · have he2 : e = (normSect sl s, [⟨goTrim k, goTrim v⟩]) := by
            simpa using he
          rw [he2]
          refine ⟨hs, List.pairwise_singleton _ _, by simp, ?_⟩
          intro kv hm
          rw [show kv = (⟨goTrim k, goTrim v⟩ : tKeyVal) from by simpa using hm]
          exact ⟨hkw, hvw⟩

theorem classifyLine_wf {sl : TSectionList} {cur line : Str}
    (h : StoreWF sl) (hd : sl.defSect = "Default".data) (hc : CurWF cur)
    (hline : LastWF line) :
    StoreWF (classifyLine sl cur line).1 ∧
    (classifyLine sl cur line).1.defSect = sl.defSect ∧
    CurWF (classifyLine sl cur line).2 := by
  unfold classifyLine
  cases hm : matchSection line with
  | some cap =>
    dsimp only
    obtain ⟨hbr, hsub⟩ := matchSection_inv hm
    refine ⟨h, rfl, ?_, ?_⟩
    · intro hmem
      exact hbr (mem_of_mem_goTrim hmem)
    · intro hmem
      exact hline.1 (hsub _ (mem_of_mem_goTrim hmem))
  | none =>
    dsimp only
    cases hkv : matchKeyVal line with
    | none =>
      dsimp only
      exact ⟨h, rfl, hc⟩
    | some kv =>
      dsimp only
      obtain ⟨hke, hksub, hnv, hvsub, hkhead⟩ :=
        matchKeyVal_inv (k := kv.1) (v := kv.2) (by rw [hkv])
      refine ⟨?_,
        AddSectionKey_fst_defSect sl cur (goTrim kv.1) (removeQuotes kv.2), hc⟩
      apply AddSectionKey_wf h (normSect_NameWF hd hc)
      · intro hne0
        rw [goTrim_idem] at hne0 ⊢
        refine ⟨goTrim_idem _, hne0, ?_, ?_, ?_⟩
        · intro hmm
          exact hke (mem_of_mem_goTrim hmm)
        · intro hmm
          exact hline.1 (hksub _ (mem_of_mem_goTrim hmm))
        · intro c hcc
          exact hline.2 c (hkhead c (goTrim_head?_dropWhile hcc))
      · intro hmm
        exact hnv (mem_removeQuotes hmm)

theorem processLine_wf {st st2 : ReadState} {raw : Str}
    (h : StateWF st) (hraw : '\n' ∉ raw)
    (hp : processLine st raw = some st2) : StateWF st2 := by
  obtain ⟨hsw, hds, hcw, hlw⟩ := h
  simp only [processLine] at hp
  by_cases hb : (goTrim raw).length = 0 ∧ st.lastLine = []
  · rw [if_pos hb] at hp
    cases Option.some.inj hp
    exact ⟨hsw, hds, hcw, hlw⟩
  · rw [if_neg hb] at hp
    by_cases h0 : (goTrim raw).length = 0
    · simp only [if_pos h0] at hp
      cases hh : st.lastLine.head? with
      | none => rw [hh] at hp; exact Option.noConfusion hp
      | some c0 =>
        rw [hh] at hp
        dsimp only at hp
        by_cases hcm : c0 = ';' ∨ c0 = '#'
        · rw [if_pos ⟨hcm, trivial⟩] at hp
          cases Option.some.inj hp
          exact ⟨hsw, hds, hcw, hlw⟩
        · rw [if_neg (fun hx => hcm hx.1)] at hp
          exact Option.noConfusion hp
    · simp only [if_neg h0] at hp
      cases hh : (goTrim raw).head? with
      | none => rw [hh] at hp; exact Option.noConfusion hp
      | some c0 =>
        rw [hh] at hp
        dsimp only at hp
        by_cases hcm : (c0 = ';' ∨ c0 = '#') ∧ st.lastLine = []
        · rw [if_pos hcm] at hp
          cases Option.some.inj hp
          exact ⟨hsw, hds, hcw, hlw⟩
        · rw [if_neg hcm] at hp
          by_cases hcc : c0 = ';' ∨ c0 = '#'
          · -- the raw line is a comment closing a pending buffer:
            -- the buffered line is processed instead
            simp only [if_pos hcc] at hp
            have hl2 : LastWF st.lastLine := hlw
            cases hgb : st.lastLine.get? ((goTrim raw).length - 1) with
            | none => rw [hgb] at hp; exact Option.noConfusion hp
            | some cB =>
              rw [hgb] at hp
              dsimp only at hp
              by_cases hbk : cB = '\\'
              · rw [if_pos hbk] at hp
                have hchunk : LastWF (st.lastLine.take ((goTrim raw).length - 1)) :=
                  LastWF_take _ hl2
                split at hp
                · cases Option.some.inj hp
                  exact ⟨hsw, hds, hcw, LastWF_append LastWF_nil hchunk⟩
                · cases Option.some.inj hp
                  exact ⟨hsw, hds, hcw,
                    LastWF_append (LastWF_append LastWF_nil hchunk)
                      LastWF_single_space⟩
              · rw [if_neg hbk] at hp
                rw [if_pos trivial] at hp
                cases Option.some.inj hp
                obtain ⟨hw1, hw2, hw3⟩ := classifyLine_wf hsw hds hcw hl2
                exact ⟨hw1, by rw [hw2]; exact hds, hw3, LastWF_nil⟩
          · simp only [if_neg hcc] at hp
            have hl2 : LastWF (goTrim raw) := LastWF_goTrim hraw hh hcc
            cases hgb : (goTrim raw).get? ((goTrim raw).length - 1) with
            | none => rw [hgb] at hp; exact Option.noConfusion hp
            | some cB =>
              rw [hgb] at hp
              dsimp only at hp
              by_cases hbk : cB = '\\'
              · rw [if_pos hbk] at hp
                have hchunk : LastWF ((goTrim raw).take ((goTrim raw).length - 1)) :=
                  LastWF_take _ hl2
                split at hp
                · cases Option.some.inj hp
                  exact ⟨hsw, hds, hcw, LastWF_append hlw hchunk⟩
                · cases Option.some.inj hp
                  exact ⟨hsw, hds, hcw,
                    LastWF_append (LastWF_append hlw hchunk)
                      LastWF_single_space⟩
              · rw [if_neg hbk] at hp
                by_cases hl0 : st.lastLine = []
                · rw [if_pos hl0] at hp
                  cases Option.some.inj hp
                  obtain ⟨hw1, hw2, hw3⟩ := classifyLine_wf hsw hds hcw hl2
                  exact ⟨hw1, by rw [hw2]; exact hds, hw3, LastWF_nil⟩
                · rw [if_neg hl0] at hp
                  cases Option.some.inj hp
                  obtain ⟨hw1, hw2, hw3⟩ :=
                    classifyLine_wf hsw hds hcw (LastWF_append hlw hl2)
                  exact ⟨hw1, by rw [hw2]; exact hds, hw3, LastWF_nil⟩

theorem StateWF_init : StateWF
    { sl := NewSectionList, curSect := NewSectionList.defSect,
      lastLine := [], bytesRead := 0 } := by
  refine ⟨⟨List.nodup_nil, ?_, List.nodup_nil, ?_⟩, rfl, ?_, LastWF_nil⟩
  · intro n
    constructor
    · intro hmem
      exact absurd hmem (by simp [NewSectionList])
    · intro hmem
      exact absurd hmem (by simp [NewSectionList, mapGet])
  · intro e he
    exact absurd he (by simp [NewSectionList])
  · exact ⟨by decide, by decide⟩

theorem readLoop_wf :
    ∀ {lines : List Str} {st st2 : ReadState},
      StateWF st → (∀ l ∈ lines, '\n' ∉ l) →
      readLoop st lines = some st2 → StateWF st2 := by
  intro lines
  induction lines with
  | nil =>
    intro st st2 h _ hp
    unfold readLoop at hp
    cases Option.some.inj hp
    exact h
  | cons l rest ih =>
    intro st st2 h hl hp
    unfold readLoop at hp
    cases hq : processLine st l with
    | none => rw [hq] at hp; exact Option.noConfusion hp
    | some stm =>
      rw [hq] at hp
      exact ih (processLine_wf h (hl l (by simp)) hq)
        (fun x hx => hl x (by simp [hx])) hp

theorem parseDoc_wf {lines : List Str} {S : TSectionList}
    (hl : ∀ l ∈ lines, '\n' ∉ l) (hp : parseDoc lines = some S) :
    StoreWF S ∧ S.defSect = "Default".data := by
  unfold parseDoc readLines at hp
  cases hr : readLoop
      { sl := NewSectionList, curSect := NewSectionList.defSect,
        lastLine := [], bytesRead := 0 } lines with
  | none =>
    rw [hr] at hp
    exact Option.noConfusion hp
  | some stf =>
    rw [hr] at hp
    have hS : stf.sl = S := by simpa using hp
    obtain ⟨hw1, hw2, _, _⟩ := readLoop_wf StateWF_init hl hr
    rw [← hS]
    exact ⟨hw1, hw2⟩

/-! The serialize/parse round trip. -/

theorem map_fst_pair {g : Str → tKeyValList} :
    ∀ ns : List Str, (ns.map (fun n => (n, g n))).map Prod.fst = ns := by
  intro ns
  induction ns with
  | nil => rfl
  | cons a l ih => simp only [List.map_cons, ih]

theorem storeUnits_map_fst (S : TSectionList) :
    (storeUnits S).map Prod.fst = S.secOrder := by
  unfold storeUnits
  exact map_fst_pair S.secOrder

/-- C1 (amended): parsing the serialized text of a parsed store yields a
store that `CompareTo`-equals the original, provided the original
satisfies the `RoundSafe` side conditions: no stored value ends in a
backslash, none is stripped again by `removeQuotes`, and no serialized
key/value line is itself of section-header shape. -/
theorem C1_round_trip (lines : List Str) (S : TSectionList)
    (hl : ∀ l ∈ lines, '\n' ∉ l)
    (hp : parseDoc lines = some S) (hsafe : RoundSafe S) :
    ∃ S2, parseDoc (scanLines (storeString S)) = some S2 ∧
      CompareTo S2 S = true := by
  obtain ⟨hwf, hds⟩ := parseDoc_wf hl hp
  obtain ⟨h1, h2, h3, h4⟩ := hwf
  have hU : ∀ x ∈ storeUnits S,
      mapGet S.sections x.1 = some x.2 ∧ x.1 ∈ S.secOrder := by
    intro x hx
    obtain ⟨n, hn, hxe⟩ := List.mem_map.mp hx
    obtain ⟨kl, hkl⟩ := Option.isSome_iff_exists.mp ((h2 n).mp hn)
    obtain ⟨_, hstrict, _, _⟩ := h4 _ (mapGet_some_mem hkl)
    have hx1 : x.1 = n := by rw [← hxe]
    have hx2 : x.2 = kl := by
      rw [← hxe]
      dsimp only
      rw [hkl]
      exact secSort_of_strict hstrict
    rw [hx1, hx2]
    exact ⟨hkl, hn⟩
  have hscan : ∀ l ∈ unitsLines (storeUnits S),
      '\n' ∉ l ∧ l.getLast? ≠ some '\r' := by
    intro l hl2
    unfold unitsLines at hl2
    obtain ⟨ls, hls, hmem⟩ := List.mem_flatten.mp hl2
    obtain ⟨x, hx, hxe⟩ := List.mem_map.mp hls
    obtain ⟨hget, _⟩ := hU x hx
    obtain ⟨hn4, _, _, hkv4⟩ := h4 _ (mapGet_some_mem hget)
    rw [← hxe] at hmem
    exact unitLines_scan_ok hn4 (fun kv hkv => hkv4 kv hkv) l hmem
  have hsafeU : ∀ x ∈ storeUnits S, UnitSafe x.1 x.2 := by
    intro x hx
    obtain ⟨hget, _⟩ := hU x hx
    have hmem := mapGet_some_mem hget
    obtain ⟨hn4, _, hne4, hkv4⟩ := h4 _ hmem
    refine ⟨hn4, hne4, ?_⟩
    intro kv hkv
    obtain ⟨hbs, hrq, hms⟩ := hsafe _ hmem kv hkv
    exact ⟨(hkv4 kv hkv).1, (hkv4 kv hkv).2, hbs, hrq, hms⟩
  have hstr : storeString S = unlines (unitsLines (storeUnits S)) :=
    storeString_eq_unlines (fun n hn => (h2 n).mp hn)
  have hparse2 : parseDoc (scanLines (storeString S)) =
      some (addUnits NewSectionList (storeUnits S)) := by
    rw [hstr, scanLines_unlines _ hscan]
    exact parseDoc_units hsafeU
  have hwfL : ∀ e ∈ storeUnits S, NameWF e.1 ∧ StrictKl e.2 ∧ e.2 ≠ [] ∧
      ∀ kv ∈ e.2, goTrim kv.Key = kv.Key ∧ kv.Key ≠ [] ∧
        goTrim kv.Value = kv.Value := by
    intro e he
    obtain ⟨hget, _⟩ := hU e he
    obtain ⟨hn4, hstrict, hne4, hkv4⟩ := h4 _ (mapGet_some_mem hget)
    refine ⟨hn4, hstrict, hne4, ?_⟩
    intro kv hkv
    exact ⟨((hkv4 kv hkv).1).1, ((hkv4 kv hkv).1).2.1, ((hkv4 kv hkv).2).1⟩
  have hnd : ((storeUnits S).map Prod.fst).Nodup := by
    rw [storeUnits_map_fst]
    exact h1
  have hrebuild : addUnits NewSectionList (storeUnits S) =
      { defSect := "Default".data, fName := [], secOrder := S.secOrder,
        sections := storeUnits S } := by
    rw [addUnits_fresh (storeUnits S) NewSectionList hwfL
      (fun e he => rfl) hnd]
    rw [storeUnits_map_fst]
    rfl
  refine ⟨addUnits NewSectionList (storeUnits S), hparse2, ?_⟩
  rw [hrebuild]
  unfold CompareTo
  dsimp only
  rw [Bool.and_eq_true]
  constructor
  · rw [beq_iff_eq]
    have hlen1 : S.secOrder.length ≤ (S.sections.map Prod.fst).length :=
      (List.Nodup.subperm h1
        (fun n hn => mapGet_isSome_iff.mp ((h2 n).mp hn))).length_le
    have hlen2 : (S.sections.map Prod.fst).length ≤ S.secOrder.length :=
      (List.Nodup.subperm h3
        (fun n hn => (h2 n).mpr (mapGet_isSome_iff.mpr hn))).length_le
    have hlen3 : (storeUnits S).length = S.secOrder.length := by
      unfold storeUnits
      rw [List.length_map]
    have hlen4 : (S.sections.map Prod.fst).length = S.sections.length :=
      List.length_map _ _
    omega
  · rw [List.all_eq_true]
    intro e he
    obtain ⟨hget, _⟩ := hU e he
    obtain ⟨_, hstrict, _, _⟩ := h4 _ (mapGet_some_mem hget)
    rw [show (match mapGet S.sections e.1 with
        | some kl => secCompareTo e.2 kl
        | none => false) = secCompareTo e.2 e.2 from by rw [hget]]
    unfold secCompareTo
    rw [kvlCompareTo_refl (strict_nodup_keys hstrict)]

/-- C1 counterexample: a value written with redundant outer quotes is
stored with one quote layer, and the serialized form `k = 'v'` loses
that layer to `removeQuotes` on re-parse, so the claimed unconditional
round trip fails for a parser-produced store. -/
theorem C1_counterexample_requotes :
    (parseDoc ["k = \"'v'\"".data]).bind
      (fun S => (parseDoc (scanLines (storeString S))).map
        (fun S2 => CompareTo S2 S)) = some false := by
  decide

theorem C1_round_trip_witness :
    (∀ l ∈ ["[A]".data, "x = 1".data], '\n' ∉ l) ∧
    (∃ S2, parseDoc (scanLines (storeString
        ⟨"Default".data, [], ["A".data],
          [("A".data, [⟨"x".data, "1".data⟩])]⟩)) = some S2 ∧
      CompareTo S2
        ⟨"Default".data, [], ["A".data],
          [("A".data, [⟨"x".data, "1".data⟩])]⟩ = true) :=
  ⟨by decide,
    C1_round_trip ["[A]".data, "x = 1".data] _ (by decide) (by decide)
      (by simp only [RoundSafe]; decide)⟩

end Ini
